import Mathlib

/-!
Verification of the workforce task-assignment engine
(`src/assignments/services.py`, `src/assignments/models.py`,
`src/assignments/api.py`) against its natural-language specification.

The Python code is shallowly embedded: Django model rows become Lean
structures, the `defaultdict`-of-`defaultdict` capacity ledger becomes an
association list with Python's read-inserts-default semantics, and the two
assignment strategies become pure Lean functions.  The external pulp solver
is modelled as an oracle parameter: the code's behaviour is settled for
every outcome the solver can produce.
-/

namespace Workforce

open List (Perm)

open scoped List

/-- `Position` model row (`models.py`): primary key and unique name. -/
structure Position where
  id : Nat
  name : String
deriving DecidableEq, Repr

/-- `Employee` model row (`models.py`): id, name, optional position. -/
structure Employee where
  id : Nat
  name : String
  position : Option Position
deriving DecidableEq, Repr

/-- `Task` model row (`models.py`): id, optional position, duration, date.
Dates are represented as natural numbers (only equality and grouping of
dates matter to the engine). -/
structure Task where
  id : Nat
  position : Option Position
  duration : Nat
  date : Nat
deriving DecidableEq, Repr

/-- One element of the `assignments` list both strategies build: the dict
`{'task': t, 'worker': w, 'work_date': d, 'hours': h}` in `services.py`. -/
structure Assignment where
  task : Task
  worker : Employee
  work_date : Nat
  hours : Nat
deriving DecidableEq, Repr

/-! ## The capacity ledger

`worker_daily_loads` in `services.py` is `defaultdict(lambda: defaultdict(int))`.
Python dicts preserve insertion order; reading a missing key of a
defaultdict inserts the default value.  We model each dict level as an
association list in insertion order. -/

/-- Inner dict of the ledger: date ↦ committed hours, in insertion order. -/
abbrev Inner := List (Nat × Nat)

/-- Outer dict of the ledger: worker id ↦ inner dict, in insertion order. -/
abbrev Ledger := List (Nat × Inner)

/-- Association-list lookup (first binding wins, as in a Python dict with
unique keys). -/
def alLookup {β : Type} : List (Nat × β) → Nat → Option β
  | [], _ => none
  | (k2, v) :: rest, k => if k2 = k then some v else alLookup rest k

/-- Association-list store: overwrite in place if the key is present
(Python keeps the key's position), otherwise append (Python appends new
keys at the end). -/
def alSet {β : Type} : List (Nat × β) → Nat → β → List (Nat × β)
  | [], k, v => [(k, v)]
  | (k2, v2) :: rest, k, v =>
      if k2 = k then (k2, v) :: rest else (k2, v2) :: alSet rest k v

/-- The hours the ledger records for worker `w` on date `d` (0 when absent),
i.e. the value `worker_daily_loads[w][d]` would yield. -/
def entryVal (L : Ledger) (w d : Nat) : Nat :=
  (alLookup ((alLookup L w).getD []) d).getD 0

/-- `worker_daily_loads[w][d]` as an expression (two defaultdict reads):
returns the value and the ledger with the read-in defaults inserted. -/
def ledgerRead (L : Ledger) (w d : Nat) : Nat × Ledger :=
  (entryVal L w d,
   alSet L w (alSet ((alLookup L w).getD []) d (entryVal L w d)))

/-- `worker_daily_loads[w][d] += h`: defaultdict reads followed by a store. -/
def ledgerAdd (L : Ledger) (w d h : Nat) : Ledger :=
  alSet (ledgerRead L w d).2 w
    (alSet ((alLookup (ledgerRead L w d).2 w).getD []) d
      ((ledgerRead L w d).1 + h))

/-- `worker_daily_loads[w]` alone (one defaultdict read), as done by the KPI
calculator: returns the inner dict and the possibly-extended ledger. -/
def outerRead (L : Ledger) (w : Nat) : Inner × Ledger :=
  ((alLookup L w).getD [], alSet L w ((alLookup L w).getD []))

/-- Every hours value stored in the ledger is at most `cap`. -/
def LedgerLE (cap : Nat) (L : Ledger) : Prop :=
  ∀ p ∈ L, ∀ q ∈ p.2, q.2 ≤ cap

/-! ### Ledger lemmas -/

theorem alLookup_alSet_self {β : Type} (l : List (Nat × β)) (k : Nat) (v : β) :
    alLookup (alSet l k v) k = some v := by
  induction l with
  | nil => simp [alSet, alLookup]
  | cons p rest ih =>
      obtain ⟨k2, v2⟩ := p
      by_cases h : k2 = k
      · simp [alSet, alLookup, h]
      · simp [alSet, alLookup, h, ih]

theorem alLookup_alSet_ne {β : Type} (l : List (Nat × β)) (k k2 : Nat) (v : β)
    (h : k2 ≠ k) : alLookup (alSet l k v) k2 = alLookup l k2 := by
  induction l with
  | nil => simp [alSet, alLookup, Ne.symm h]
  | cons p rest ih =>
      obtain ⟨k3, v3⟩ := p
      by_cases h3 : k3 = k
      · subst h3
        simp [alSet, alLookup, Ne.symm h]
      · by_cases h2 : k3 = k2 <;> simp [alSet, alLookup, h3, h2, ih, h]

theorem alSet_lookup_eq {β : Type} (l : List (Nat × β)) (k : Nat) (v : β)
    (h : alLookup l k = some v) : alSet l k v = l := by
  induction l with
  | nil => simp [alLookup] at h
  | cons p rest ih =>
      obtain ⟨k2, v2⟩ := p
      by_cases hk : k2 = k
      · subst hk
        simp [alLookup] at h
        simp [alSet, h]
      · simp [alLookup, hk] at h
        simp [alSet, hk, ih h]

theorem mem_alSet {β : Type} (l : List (Nat × β)) (k : Nat) (v : β) :
    ∀ p ∈ alSet l k v, p = (k, v) ∨ p ∈ l := by
  induction l with
  | nil => simp [alSet]
  | cons q rest ih =>
      obtain ⟨k2, v2⟩ := q
      intro p hp
      by_cases h : k2 = k
      · simp [alSet, h] at hp
        rcases hp with hp | hp
        · subst h; exact Or.inl (by simp [hp])
        · exact Or.inr (by simp [hp])
      · simp [alSet, h] at hp
        rcases hp with hp | hp
        · exact Or.inr (by simp [hp])
        · rcases ih p hp with h2 | h2
          · exact Or.inl h2
          · exact Or.inr (by simp [h2])

theorem alLookup_mem {β : Type} (l : List (Nat × β)) (k : Nat) (v : β)
    (h : alLookup l k = some v) : (k, v) ∈ l := by
  induction l with
  | nil => simp [alLookup] at h
  | cons p rest ih =>
      obtain ⟨k2, v2⟩ := p
      by_cases hk : k2 = k
      · subst hk
        simp [alLookup] at h
        simp [h]
      · simp [alLookup, hk] at h
        simp [ih h]

theorem entryVal_le_of_ledgerLE {cap : Nat} {L : Ledger} (h : LedgerLE cap L)
    (w d : Nat) : entryVal L w d ≤ cap := by
  unfold entryVal
  cases hw : alLookup L w with
  | none => simp [alLookup]
  | some inner =>
      simp only [Option.getD_some]
      cases hd : alLookup inner d with
      | none => simp
      | some v =>
          simp only [Option.getD_some]
          exact h (w, inner) (alLookup_mem L w inner hw) (d, v)
            (alLookup_mem inner d v hd)

theorem ledgerRead_fst (L : Ledger) (w d : Nat) :
    (ledgerRead L w d).1 = entryVal L w d := rfl

theorem entryVal_alSet_outer (L : Ledger) (w : Nat) (inner : Inner)
    (w2 d2 : Nat) :
    entryVal (alSet L w inner) w2 d2 =
      if w2 = w then (alLookup inner d2).getD 0 else entryVal L w2 d2 := by
  unfold entryVal
  by_cases hw : w2 = w
  · subst hw
    simp [alLookup_alSet_self]
  · simp [alLookup_alSet_ne L w w2 inner hw, hw]

theorem entryVal_set2 (L : Ledger) (w d v w2 d2 : Nat) :
    entryVal (alSet L w (alSet ((alLookup L w).getD []) d v)) w2 d2 =
      if w2 = w ∧ d2 = d then v else entryVal L w2 d2 := by
  rw [entryVal_alSet_outer]
  by_cases hw : w2 = w
  · subst hw
    by_cases hd : d2 = d
    · subst hd; simp [alLookup_alSet_self]
    · simp [hd, alLookup_alSet_ne _ d d2 _ hd, entryVal]
  · simp [hw]

theorem entryVal_ledgerRead (L : Ledger) (w d w2 d2 : Nat) :
    entryVal (ledgerRead L w d).2 w2 d2 = entryVal L w2 d2 := by
  unfold ledgerRead
  simp only
  rw [entryVal_set2]
  by_cases hc : w2 = w ∧ d2 = d
  · obtain ⟨h1, h2⟩ := hc
    subst h1; subst h2
    simp
  · simp [hc]

theorem entryVal_ledgerAdd (L : Ledger) (w d h w2 d2 : Nat) :
    entryVal (ledgerAdd L w d h) w2 d2 =
      if w2 = w ∧ d2 = d then entryVal L w d + h else entryVal L w2 d2 := by
  unfold ledgerAdd
  rw [entryVal_set2, ledgerRead_fst]
  by_cases hc : w2 = w ∧ d2 = d
  · simp [hc]
  · simp [hc, entryVal_ledgerRead]

theorem ledgerLE_alSet_outer {cap : Nat} {L : Ledger} {inner : Inner}
    (hL : LedgerLE cap L) (w : Nat) (hin : ∀ q ∈ inner, q.2 ≤ cap) :
    LedgerLE cap (alSet L w inner) := by
  intro p hp q hq
  rcases mem_alSet L w inner p hp with h | h
  · subst h; exact hin q hq
  · exact hL p h q hq

theorem inner_entries_le {cap : Nat} {L : Ledger} (hL : LedgerLE cap L)
    (w : Nat) : ∀ q ∈ (alLookup L w).getD [], q.2 ≤ cap := by
  cases hw : alLookup L w with
  | none => simp [hw]
  | some inner =>
      simp only [hw, Option.getD_some]
      exact hL (w, inner) (alLookup_mem L w inner hw)

theorem inner_alSet_le {cap : Nat} {inner : Inner} (h : ∀ q ∈ inner, q.2 ≤ cap)
    (d v : Nat) (hv : v ≤ cap) : ∀ q ∈ alSet inner d v, q.2 ≤ cap := by
  intro q hq
  rcases mem_alSet inner d v q hq with h2 | h2
  · subst h2; exact hv
  · exact h q h2

theorem ledgerLE_ledgerRead {cap : Nat} {L : Ledger} (hL : LedgerLE cap L)
    (w d : Nat) : LedgerLE cap (ledgerRead L w d).2 := by
  unfold ledgerRead
  simp only
  exact ledgerLE_alSet_outer hL w
    (inner_alSet_le (inner_entries_le hL w) d _ (entryVal_le_of_ledgerLE hL w d))

theorem ledgerLE_ledgerAdd {cap : Nat} {L : Ledger} (hL : LedgerLE cap L)
    (w d h : Nat) (hle : entryVal L w d + h ≤ cap) :
    LedgerLE cap (ledgerAdd L w d h) := by
  unfold ledgerAdd
  simp only [ledgerRead_fst]
  have hR := ledgerLE_ledgerRead hL w d
  exact ledgerLE_alSet_outer hR w
    (inner_alSet_le (inner_entries_le hR w) d _ hle)

theorem entryVal_outerRead (L : Ledger) (w w2 d2 : Nat) :
    entryVal (outerRead L w).2 w2 d2 = entryVal L w2 d2 := by
  unfold outerRead
  simp only
  rw [entryVal_alSet_outer]
  by_cases hw : w2 = w
  · subst hw; simp [entryVal]
  · simp [hw]

theorem mem_outerRead (L : Ledger) (w : Nat) :
    ∀ p ∈ (outerRead L w).2, p ∈ L ∨ p.2 = [] := by
  unfold outerRead
  simp only
  intro p hp
  rcases mem_alSet L w _ p hp with h | h
  · cases hl : alLookup L w with
    | none => subst h; simp [hl]
    | some inner =>
        subst h
        simp only [hl, Option.getD_some]
        exact Or.inl (alLookup_mem L w inner hl)
  · exact Or.inl h

/-- Sum of hours over the assignments given to worker id `w` on date `d`. -/
def sumFor (as : List Assignment) (w d : Nat) : Nat :=
  ((as.filter (fun a => a.worker.id == w && a.work_date == d)).map
    (fun a => a.hours)).sum

theorem sumFor_append_single (as : List Assignment) (a : Assignment)
    (w d : Nat) :
    sumFor (as ++ [a]) w d =
      sumFor as w d + (if a.worker.id = w ∧ a.work_date = d then a.hours else 0) := by
  unfold sumFor
  rw [List.filter_append]
  by_cases h : a.worker.id = w ∧ a.work_date = d
  · simp [h]
  · rw [Decidable.not_and_iff_or_not] at h
    rcases h with h | h <;> simp [h]

/-! ## The greedy strategy (`assign_tasks_using_greedy`)

`services.py` groups tasks by `(task.date, position_name)` in first-occurrence
order (Python dict insertion order), groups employees by position name, sorts
each task group by duration ascending with Python's stable sort, and scans
`available_workers` in roster order keeping the first strictly-smallest
feasible load. -/

/-- `task.position.name if task.position else "Unassigned"` (same for
employees). -/
def posName (p : Option Position) : String :=
  match p with
  | some q => q.name
  | none => "Unassigned"

/-- Grouping key of a task: `(task.date, position_name)`. -/
def taskKey (t : Task) : Nat × String := (t.date, posName t.position)

/-- Position name of an employee, for `employees_by_position`. -/
def empName (e : Employee) : String := posName e.position

/-- The distinct `(date, position_name)` keys of `tasks_by_date_position`, in
first-occurrence order (Python dict iteration order). -/
def keyList : List Task → List (Nat × String)
  | [] => []
  | t :: ts => taskKey t :: (keyList ts).filter (fun k => k != taskKey t)

/-- Stable insertion of a task into a duration-sorted list: the new task goes
after every task of smaller-or-equal duration already present. -/
def insertTask (t : Task) : List Task → List Task
  | [] => [t]
  | u :: us =>
      if u.duration ≤ t.duration then u :: insertTask t us else t :: u :: us

/-- `position_tasks.sort(key=lambda t: t.duration)`: stable ascending sort by
duration (insertion sort, which is stable, models Python's stable sort). -/
def sortTasks (l : List Task) : List Task :=
  l.foldl (fun acc t => insertTask t acc) []

/-- One step of the `for worker in available_workers` scan: `best` carries
`(best_worker, min_load)` (`none` encodes `min_load = inf`).  The worker is
taken when it has headroom and a strictly smaller current load. -/
def stepBest (d dur cap : Nat) (L : Ledger) (w : Employee)
    (best : Option (Employee × Nat)) : Option (Employee × Nat) :=
  if entryVal L w.id d + dur ≤ cap then
    match best with
    | none => some (w, entryVal L w.id d)
    | some (b, m) =>
        if entryVal L w.id d < m then some (w, entryVal L w.id d) else some (b, m)
  else best

/-- The full scan over `available_workers`: each iteration performs the
defaultdict read `worker_daily_loads[worker.id][task_date]` (which inserts
missing keys with value 0) and updates the running best. -/
def scanWorkers (d dur cap : Nat) :
    List Employee → Option (Employee × Nat) → Ledger →
      Option (Employee × Nat) × Ledger
  | [], best, L => (best, L)
  | w :: ws, best, L =>
      scanWorkers d dur cap ws (stepBest d dur cap L w best) (ledgerRead L w.id d).2

/-- The Assignment record appended on success: work date is the task's date
and hours are the task's duration. -/
def mkAssign (t : Task) (w : Employee) : Assignment :=
  ⟨t, w, t.date, t.duration⟩

/-- The triple `(assignments, unassigned_tasks, worker_daily_loads)` built by
either strategy. -/
structure GOut where
  assigned : List Assignment
  unassigned : List Task
  loads : Ledger
deriving Repr

/-- Processing of one task inside a group: scan the available workers, then
either commit the best worker's load and record the assignment, or report
the task unassigned. -/
def greedyTask (cap : Nat) (avail : List Employee) (s : GOut) (t : Task) :
    GOut :=
  match scanWorkers t.date t.duration cap avail none s.loads with
  | (some (w, _), L1) =>
      { assigned := s.assigned ++ [mkAssign t w]
        unassigned := s.unassigned
        loads := ledgerAdd L1 w.id t.date t.duration }
  | (none, L1) =>
      { assigned := s.assigned
        unassigned := s.unassigned ++ [t]
        loads := L1 }

/-- Processing of one `(date, position)` group: with no eligible workers the
whole (unsorted) group becomes unassigned; otherwise the group is processed
sorted by duration ascending. -/
def greedyGroup (cap : Nat) (employees : List Employee) (tasks : List Task)
    (s : GOut) (k : Nat × String) : GOut :=
  if employees.filter (fun e => empName e == k.2) = [] then
    { s with unassigned := s.unassigned ++ tasks.filter (fun t => taskKey t == k) }
  else
    (sortTasks (tasks.filter (fun t => taskKey t == k))).foldl
      (greedyTask cap (employees.filter (fun e => empName e == k.2))) s

/-- `TaskAssignmentService.assign_tasks_using_greedy` (services.py lines
141-202). -/
def assign_tasks_using_greedy (tasks : List Task) (employees : List Employee)
    (cap : Nat) : GOut :=
  (keyList tasks).foldl (greedyGroup cap employees tasks) ⟨[], [], []⟩

/-! ## The exact strategy (`assign_tasks_using_lp`)

`services.py` creates one binary pulp variable per (task, employee) pair
whose position ids match (`task.position.id if task.position else
"Unassigned"`; a Python `int` never equals the string sentinel, so a missing
position matches only a missing position), posts the one-assignee and
daily-capacity constraints, maximizes total assigned duration, calls
`problem.solve()` and parses every variable whose value is 1.

The external solver is an oracle: `solve()` either raises `PulpSolverError`
(caught and re-raised as `RuntimeError`) or returns, leaving each variable
with an optional value.  The parse, and every property of the result, is
settled for each possible oracle outcome; the solver's contract (a returned
solution satisfies the posted constraints, an optimal one also maximizes the
posted objective) appears as an explicit hypothesis where a claim needs it. -/

/-- Position key used by the exact strategy: the position id, or the string
sentinel for a missing position.  An id never equals the sentinel, so the
key is faithfully `Option Nat` with `none` for `"Unassigned"`. -/
def posKey (p : Option Position) : Option Nat := p.map Position.id

/-- `task_pos == emp_pos` for the LP variable creation. -/
def posMatch (t : Task) (e : Employee) : Bool :=
  posKey t.position == posKey e.position

/-- The (task, employee) pairs for which a variable `x[(task.id, emp.id)]`
is created, in creation order. -/
def lpPairs (tasks : List Task) (employees : List Employee) :
    List (Task × Employee) :=
  tasks.flatMap
    (fun t => (employees.filter (fun e => posMatch t e)).map (fun e => (t, e)))

/-- `var.value() == 1` for the variable keyed `(task.id, emp.id)`: `vals`
maps a variable key to its solved value (`none` when the solver left it
unset). -/
def solOf (vals : Nat × Nat → Option Int) (k : Nat × Nat) : Bool :=
  vals k == some 1

/-- The pairs whose variable parsed to 1, in `x.items()` order. -/
def lpChosen (tasks : List Task) (employees : List Employee)
    (sol : Nat × Nat → Bool) : List (Task × Employee) :=
  (lpPairs tasks employees).filter (fun p => sol (p.1.id, p.2.id))

/-- The ledger rebuilt by the parse loop:
`worker_daily_loads[emp.id][task.date] += task.duration` per chosen pair. -/
def lpLoads (chosen : List (Task × Employee)) : Ledger :=
  chosen.foldl (fun L p => ledgerAdd L p.2.id p.1.date p.1.duration) []

/-- The result-parsing part of `assign_tasks_using_lp` (services.py lines
244-267). -/
def lpParse (tasks : List Task) (employees : List Employee)
    (sol : Nat × Nat → Bool) : GOut :=
  { assigned := (lpChosen tasks employees sol).map (fun p => mkAssign p.1 p.2)
    unassigned := tasks.filter
      (fun t =>
        !(decide (t.id ∈ (lpChosen tasks employees sol).map (fun p => p.1.id))))
    loads := lpLoads (lpChosen tasks employees sol) }

/-- Outcome of `problem.solve()`: a raised `PulpSolverError`, or a normal
return with each variable's optional value. -/
inductive SolveOutcome where
  | failure
  | finished (vals : Nat × Nat → Option Int)

/-- `TaskAssignmentService.assign_tasks_using_lp` (services.py lines
205-267), as a function of the solver outcome. -/
def assign_tasks_using_lp (tasks : List Task) (employees : List Employee)
    (cap : Nat) : SolveOutcome → Except String GOut
  | .failure => .error "Failed to solve LP problem"
  | .finished vals => .ok (lpParse tasks employees (solOf vals))

/-- `Each task assigned to at most one employee`: the posted constraint
`lpSum(x.get((task.id, e.id), 0) for e in employees) <= 1`.  A key
`(t.id, e.id)` is in `x` exactly when `posMatch t e` (ids are primary keys,
assumed distinct where a theorem needs it). -/
def lpConstraintA (tasks : List Task) (employees : List Employee)
    (sol : Nat × Nat → Bool) : Prop :=
  ∀ t ∈ tasks,
    (employees.filter (fun e => posMatch t e && sol (t.id, e.id))).length ≤ 1

/-- `Each employee cannot exceed max hours per day`: for every employee and
every date occurring in the task list, the summed duration of its solved
variables on that date is at most `cap`. -/
def lpConstraintB (tasks : List Task) (employees : List Employee) (cap : Nat)
    (sol : Nat × Nat → Bool) : Prop :=
  ∀ e ∈ employees, ∀ d ∈ tasks.map Task.date,
    ((tasks.filter
        (fun t => t.date == d && posMatch t e && sol (t.id, e.id))).map
      Task.duration).sum ≤ cap

/-- A solver solution satisfying the posted constraints. -/
def lpFeasible (tasks : List Task) (employees : List Employee) (cap : Nat)
    (sol : Nat × Nat → Bool) : Prop :=
  lpConstraintA tasks employees sol ∧ lpConstraintB tasks employees cap sol

/-- The posted objective `Maximize total assigned task duration` evaluated
at a solution. -/
def lpTotal (tasks : List Task) (employees : List Employee)
    (sol : Nat × Nat → Bool) : Nat :=
  ((lpChosen tasks employees sol).map (fun p => p.1.duration)).sum

/-- A feasible solution that maximizes the posted objective. -/
def lpOptimal (tasks : List Task) (employees : List Employee) (cap : Nat)
    (sol : Nat × Nat → Bool) : Prop :=
  lpFeasible tasks employees cap sol ∧
    ∀ sol2, lpFeasible tasks employees cap sol2 →
      lpTotal tasks employees sol2 ≤ lpTotal tasks employees sol

/-! ## KPI calculator (`calculate_kpi_metrics`) -/

/-- Rounding to three decimals, `round(x, 3)` (tie-breaking at exact .0005
boundaries follows Lean's `round`; no claim depends on ties). -/
def round3 (q : ℚ) : ℚ := (round (q * 1000) : ℤ) / 1000

/-- Ascending insertion for sorting a value vector. -/
def insertNat (v : Nat) : List Nat → List Nat
  | [] => [v]
  | u :: us => if u ≤ v then u :: insertNat v us else v :: u :: us

/-- Ascending sort of a value vector. -/
def sortNats (l : List Nat) : List Nat :=
  l.foldl (fun acc v => insertNat v acc) []

/-- Modelled from the spec: the third-party `inequality` library's
`gini.Gini(values).g` (the library's source is not part of the repository).
Spec formula: over values sorted ascending and 1-indexed,
`gini = (2 * Σ i * v_i) / (n * Σ v) - (n + 1) / n`.  The computation runs in
machine floats; a zero denominator (`n * Σ v = 0`, the all-zero vector)
makes the float result undefined (0/0, NaN), modelled as `none`. -/
def giniLib (values : List Nat) : Option ℚ :=
  if (values.length * values.sum = 0) then none
  else some
    ((2 * ((List.enumFrom 1 (sortNats values)).map
        (fun p => (p.1 : ℚ) * (p.2 : ℚ))).sum) /
        ((values.length : ℚ) * (values.sum : ℚ)) -
      ((values.length : ℚ) + 1) / (values.length : ℚ))

/-- `TaskAssignmentService._calculate_gini_coefficient` (services.py lines
309-314): 0.0 for an empty or singleton vector, otherwise the library
Gini. -/
def calculate_gini_coefficient (values : List Nat) : Option ℚ :=
  if values.length = 0 ∨ values.length = 1 then some 0
  else giniLib values

/-- `KPIMetricsSchema` with the fields `calculate_kpi_metrics` fills.  The
gini field is `Option ℚ`: `none` models a NaN float. -/
structure KPIMetrics where
  utilization_rate : ℚ
  max_worker_load : Nat
  unassigned_hours : Nat
  gini_coefficient : Option ℚ
  total_workers : Nat
  total_tasks : Nat
  total_assigned_hours : Nat
deriving DecidableEq, Repr

/-- One iteration of the per-worker loop of `calculate_kpi_metrics`:
`worker_daily_loads[worker.id]` is a defaultdict read (inserting an empty
row for an absent worker), whose values feed `worker_max_daily` and
`worker_total`. -/
def kpiStep (acc : Nat × List Nat × Ledger) (e : Employee) :
    Nat × List Nat × Ledger :=
  (max acc.1 (((outerRead acc.2.2 e.id).1.map (fun q => q.2)).foldl max 0),
   acc.2.1 ++ [((outerRead acc.2.2 e.id).1.map (fun q => q.2)).sum],
   (outerRead acc.2.2 e.id).2)

/-- The per-worker loop of `calculate_kpi_metrics`, accumulating
`(max_worker_load, worker_loads, ledger)`. -/
def kpiWorkerFold (employees : List Employee) (L : Ledger) :
    Nat × List Nat × Ledger :=
  employees.foldl kpiStep (0, [], L)

/-- The distinct dates appearing in the ledger (`distinct_dates`), read
before the worker loop. -/
def ledgerDates (L : Ledger) : List Nat :=
  ((L.map (fun p => p.2.map (fun q => q.1))).flatten).dedup

/-- `TaskAssignmentService.calculate_kpi_metrics` (services.py lines
269-308).  Returns the metrics and the ledger as it stands after the
defaultdict reads. -/
def calculate_kpi_metrics (assignments : List Assignment)
    (unassigned_tasks : List Task) (worker_daily_loads : Ledger)
    (employees : List Employee) (cap : Nat) : KPIMetrics × Ledger :=
  { utilization_rate := round3
      ((((assignments.map (fun a => a.hours)).sum : ℚ)) /
        ((if employees.length * cap *
              (if (ledgerDates worker_daily_loads).length = 0 then 1
               else (ledgerDates worker_daily_loads).length) = 0 then 1
          else employees.length * cap *
            (if (ledgerDates worker_daily_loads).length = 0 then 1
             else (ledgerDates worker_daily_loads).length) : Nat) : ℚ))
    max_worker_load := (kpiWorkerFold employees worker_daily_loads).1
    unassigned_hours := (unassigned_tasks.map (fun t => t.duration)).sum
    gini_coefficient :=
      (calculate_gini_coefficient
        (kpiWorkerFold employees worker_daily_loads).2.1).map round3
    total_workers := employees.length
    total_tasks := assignments.length + unassigned_tasks.length
    total_assigned_hours := (assignments.map (fun a => a.hours)).sum
    : KPIMetrics} |>
  (fun m => (m, (kpiWorkerFold employees worker_daily_loads).2.2))

/-! ## Orchestrator and API boundary -/

/-- The two assignment strategies. -/
inductive Strategy where
  | greedy
  | lp
deriving DecidableEq, Repr

/-- The strategy dispatch inside
`TaskAssignmentService.create_task_assignments` (services.py lines 331-336):
`'greedy'` selects the greedy strategy, anything else falls through to the
`else` branch, which runs the LP strategy. -/
def create_task_assignments_dispatch (method : String) : Strategy :=
  if method = "greedy" then Strategy.greedy else Strategy.lp

/-- The request validation at the API boundary (api.py line 51): the
`method` parameter is declared `Literal['lp', 'greedy']`, so the framework
rejects any other value with a validation error before the service runs.
`none` models that rejection. -/
def api_method_validate (method : String) : Option Strategy :=
  if method = "lp" then some Strategy.lp
  else if method = "greedy" then some Strategy.greedy
  else none

/-! ## Lemmas about the worker scan -/

/-- The scan step as a pure function of a load function `f`. -/
def pureStep (f : Employee → Nat) (dur cap : Nat) (w : Employee)
    (best : Option (Employee × Nat)) : Option (Employee × Nat) :=
  if f w + dur ≤ cap then
    match best with
    | none => some (w, f w)
    | some (b, m) => if f w < m then some (w, f w) else some (b, m)
  else best

/-- The scan as a pure function of a load function. -/
def pureScan (f : Employee → Nat) (dur cap : Nat) :
    List Employee → Option (Employee × Nat) → Option (Employee × Nat)
  | [], best => best
  | w :: ws, best => pureScan f dur cap ws (pureStep f dur cap w best)

theorem stepBest_eq_pureStep (d dur cap : Nat) (L : Ledger) (w : Employee)
    (best : Option (Employee × Nat)) :
    stepBest d dur cap L w best =
      pureStep (fun w2 => entryVal L w2.id d) dur cap w best := rfl

theorem scanWorkers_fst_eq (d dur cap : Nat) (ws : List Employee) :
    ∀ (best : Option (Employee × Nat)) (L : Ledger),
      (scanWorkers d dur cap ws best L).1 =
        pureScan (fun w2 => entryVal L w2.id d) dur cap ws best := by
  induction ws with
  | nil => intro best L; rfl
  | cons w ws ih =>
      intro best L
      show (scanWorkers d dur cap ws (stepBest d dur cap L w best)
              (ledgerRead L w.id d).2).1 = _
      rw [ih]
      have hf : (fun w2 : Employee => entryVal (ledgerRead L w.id d).2 w2.id d) =
          (fun w2 : Employee => entryVal L w2.id d) := by
        funext w2
        exact entryVal_ledgerRead L w.id d w2.id d
      rw [hf, stepBest_eq_pureStep]
      rfl

theorem scanWorkers_snd_entryVal (d dur cap : Nat) (ws : List Employee) :
    ∀ (best : Option (Employee × Nat)) (L : Ledger) (w2 d2 : Nat),
      entryVal (scanWorkers d dur cap ws best L).2 w2 d2 = entryVal L w2 d2 := by
  induction ws with
  | nil => intro best L w2 d2; rfl
  | cons w ws ih =>
      intro best L w2 d2
      show entryVal (scanWorkers d dur cap ws (stepBest d dur cap L w best)
              (ledgerRead L w.id d).2).2 w2 d2 = _
      rw [ih, entryVal_ledgerRead]

theorem scanWorkers_snd_LE {cap2 : Nat} (d dur cap : Nat) (ws : List Employee) :
    ∀ (best : Option (Employee × Nat)) (L : Ledger), LedgerLE cap2 L →
      LedgerLE cap2 (scanWorkers d dur cap ws best L).2 := by
  induction ws with
  | nil => intro best L h; exact h
  | cons w ws ih =>
      intro best L h
      exact ih _ _ (ledgerLE_ledgerRead h w.id d)

theorem pureScan_some (f : Employee → Nat) (dur cap : Nat) (ws : List Employee) :
    ∀ (best : Option (Employee × Nat)) (w : Employee) (m : Nat),
      pureScan f dur cap ws best = some (w, m) →
      best = some (w, m) ∨ (w ∈ ws ∧ m = f w ∧ f w + dur ≤ cap) := by
  induction ws with
  | nil => intro best w m h; exact Or.inl h
  | cons w2 ws ih =>
      intro best w m h
      rcases ih (pureStep f dur cap w2 best) w m h with h2 | h2
      · by_cases hfeas : f w2 + dur ≤ cap
        · cases best with
          | none =>
              rw [show pureStep f dur cap w2 none = some (w2, f w2) from by
                simp [pureStep, hfeas]] at h2
              injection h2 with h3
              rw [Prod.mk.injEq] at h3
              refine Or.inr ?_
              rw [← h3.1, ← h3.2]
              exact ⟨List.mem_cons_self _ _, rfl, hfeas⟩
          | some p =>
              obtain ⟨b, mb⟩ := p
              by_cases hlt : f w2 < mb
              · rw [show pureStep f dur cap w2 (some (b, mb)) = some (w2, f w2) from by
                  simp [pureStep, hfeas, hlt]] at h2
                injection h2 with h3
                rw [Prod.mk.injEq] at h3
                refine Or.inr ?_
                rw [← h3.1, ← h3.2]
                exact ⟨List.mem_cons_self _ _, rfl, hfeas⟩
              · rw [show pureStep f dur cap w2 (some (b, mb)) = some (b, mb) from by
                  simp [pureStep, hfeas, hlt]] at h2
                exact Or.inl h2
        · rw [show pureStep f dur cap w2 best = best from by
            simp [pureStep, hfeas]] at h2
          exact Or.inl h2
      · exact Or.inr ⟨List.mem_cons_of_mem _ h2.1, h2.2.1, h2.2.2⟩

theorem scanWorkers_some (d dur cap : Nat) (ws : List Employee) (L : Ledger)
    (w : Employee) (m : Nat)
    (h : (scanWorkers d dur cap ws none L).1 = some (w, m)) :
    w ∈ ws ∧ m = entryVal L w.id d ∧ entryVal L w.id d + dur ≤ cap := by
  rw [scanWorkers_fst_eq] at h
  rcases pureScan_some _ dur cap ws none w m h with h2 | h2
  · exact absurd h2 (by simp)
  · exact h2

/-! ### The scan as "first worker of minimal load among the feasible ones"

This is the selection policy the specification describes: filter the
eligible workers down to those with headroom, take the minimum current load,
and break ties by iteration order (first encountered wins). -/

/-- First element attaining the minimal value of `f` (ties: the earlier
element wins). -/
def firstMinBy (f : Employee → Nat) : List Employee → Option Employee
  | [] => none
  | w :: ws =>
      match firstMinBy f ws with
      | none => some w
      | some b => if f w ≤ f b then some w else some b

/-- Combination of two scan results: the second replaces the first only
with a strictly smaller load. -/
def mergeBest : Option (Employee × Nat) → Option (Employee × Nat) →
    Option (Employee × Nat)
  | none, c => c
  | some b, none => some b
  | some b, some c => if c.2 < b.2 then some c else some b

theorem mergeBest_some_some (x y : Employee × Nat) :
    mergeBest (some x) (some y) = if y.2 < x.2 then some y else some x := rfl

theorem mergeBest_some_none (x : Employee × Nat) :
    mergeBest (some x) none = some x := rfl

theorem mergeBest_none (c : Option (Employee × Nat)) :
    mergeBest none c = c := rfl

theorem mergeBest_assoc (a b c : Option (Employee × Nat)) :
    mergeBest (mergeBest a b) c = mergeBest a (mergeBest b c) := by
  cases a with
  | none => rfl
  | some pa =>
      cases b with
      | none => cases c <;> rfl
      | some pb =>
          cases c with
          | none =>
              rw [mergeBest_some_some]
              by_cases h1 : pb.2 < pa.2 <;>
                simp [h1, mergeBest_some_none, mergeBest_some_some]
          | some pc =>
              rw [mergeBest_some_some, mergeBest_some_some]
              by_cases h1 : pb.2 < pa.2 <;> by_cases h2 : pc.2 < pb.2 <;>
                simp only [h1, h2, if_true, if_false,
                  mergeBest_some_some] <;>
                first
                | rfl
                | (split_ifs <;> first | rfl | omega)

theorem pureStep_eq_merge (f : Employee → Nat) (dur cap : Nat) (w : Employee)
    (best : Option (Employee × Nat)) :
    pureStep f dur cap w best = mergeBest best (pureStep f dur cap w none) := by
  unfold pureStep
  by_cases hfeas : f w + dur ≤ cap
  · cases best with
    | none => simp [hfeas, mergeBest]
    | some p =>
        obtain ⟨b, m⟩ := p
        simp only [hfeas, if_true, mergeBest_some_some]
  · cases best with
    | none => simp [hfeas, mergeBest]
    | some p => simp [hfeas, mergeBest]

theorem pureScan_merge (f : Employee → Nat) (dur cap : Nat) (ws : List Employee) :
    ∀ best, pureScan f dur cap ws best =
      mergeBest best (pureScan f dur cap ws none) := by
  induction ws with
  | nil => intro best; cases best <;> rfl
  | cons w ws ih =>
      intro best
      show pureScan f dur cap ws (pureStep f dur cap w best) = _
      rw [ih (pureStep f dur cap w best), pureStep_eq_merge,
        mergeBest_assoc]
      have h2 : pureScan f dur cap (w :: ws) none =
          mergeBest (pureStep f dur cap w none) (pureScan f dur cap ws none) := by
        show pureScan f dur cap ws (pureStep f dur cap w none) = _
        rw [ih]
      rw [h2]

theorem pureScan_eq_firstMinBy (f : Employee → Nat) (dur cap : Nat)
    (ws : List Employee) :
    pureScan f dur cap ws none =
      (firstMinBy f (ws.filter (fun w => f w + dur ≤ cap))).map
        (fun w => (w, f w)) := by
  induction ws with
  | nil => rfl
  | cons w ws ih =>
      show pureScan f dur cap ws (pureStep f dur cap w none) = _
      rw [pureScan_merge, ih]
      by_cases hfeas : f w + dur ≤ cap
      · have hstep : pureStep f dur cap w none = some (w, f w) := by
          simp [pureStep, hfeas]
        rw [hstep]
        rw [List.filter_cons_of_pos (by simpa using hfeas)]
        cases hrec : firstMinBy f (ws.filter (fun w2 => f w2 + dur ≤ cap)) with
        | none => simp [firstMinBy, hrec, mergeBest]
        | some b =>
            simp only [firstMinBy, hrec, Option.map_some]
            by_cases hle : f w ≤ f b
            · simp [mergeBest, show ¬ f b < f w from by omega, hle]
            · simp [mergeBest, show f b < f w from by omega, hle]
      · have hstep : pureStep f dur cap w none = none := by
          simp [pureStep, hfeas]
        rw [hstep, List.filter_cons_of_neg (by simpa using hfeas)]
        cases hrec : firstMinBy f (ws.filter (fun w2 => f w2 + dur ≤ cap)) <;>
          simp [mergeBest, hrec]

/-! ## Lemmas about the stable duration sort -/

/-- Ascending-by-duration order. -/
def durLE (a b : Task) : Prop := a.duration ≤ b.duration

theorem insertTask_perm (t : Task) (l : List Task) :
    insertTask t l ~ t :: l := by
  induction l with
  | nil => rfl
  | cons u us ih =>
      by_cases h : u.duration ≤ t.duration
      · show (if u.duration ≤ t.duration then u :: insertTask t us
            else t :: u :: us) ~ t :: u :: us
        rw [if_pos h]
        calc u :: insertTask t us ~ u :: t :: us := (ih.cons u)
          _ ~ t :: u :: us := List.Perm.swap t u us
      · show (if u.duration ≤ t.duration then u :: insertTask t us
            else t :: u :: us) ~ t :: u :: us
        rw [if_neg h]

theorem foldl_insertTask_perm (l : List Task) :
    ∀ acc, l.foldl (fun a t => insertTask t a) acc ~ acc ++ l := by
  induction l with
  | nil => intro acc; simp
  | cons t ts ih =>
      intro acc
      calc (t :: ts).foldl (fun a t2 => insertTask t2 a) acc
          = ts.foldl (fun a t2 => insertTask t2 a) (insertTask t acc) := rfl
        _ ~ insertTask t acc ++ ts := ih (insertTask t acc)
        _ ~ (t :: acc) ++ ts := ((insertTask_perm t acc).append_right ts)
        _ ~ acc ++ t :: ts := (List.perm_middle.symm)

theorem sortTasks_perm (l : List Task) : sortTasks l ~ l := by
  simpa using foldl_insertTask_perm l []

theorem insertTask_sorted (t : Task) (l : List Task)
    (h : List.Sorted durLE l) : List.Sorted durLE (insertTask t l) := by
  induction l with
  | nil => simp [insertTask, List.Sorted]
  | cons u us ih =>
      rw [List.sorted_cons] at h
      by_cases hle : u.duration ≤ t.duration
      · show List.Sorted durLE (if u.duration ≤ t.duration
            then u :: insertTask t us else t :: u :: us)
        rw [if_pos hle, List.sorted_cons]
        refine ⟨?_, ih h.2⟩
        intro x hx
        rcases List.mem_cons.mp ((insertTask_perm t us).mem_iff.mp hx) with hx | hx
        · subst hx; exact hle
        · exact h.1 x hx
      · show List.Sorted durLE (if u.duration ≤ t.duration
            then u :: insertTask t us else t :: u :: us)
        rw [if_neg hle, List.sorted_cons]
        constructor
        · intro x hx
          rcases List.mem_cons.mp hx with hx | hx
          · subst hx; unfold durLE; omega
          · have := h.1 x hx
            unfold durLE at this ⊢; omega
        · rw [List.sorted_cons]; exact h

theorem foldl_insertTask_sorted (l : List Task) :
    ∀ acc, List.Sorted durLE acc →
      List.Sorted durLE (l.foldl (fun a t => insertTask t a) acc) := by
  induction l with
  | nil => intro acc h; exact h
  | cons t ts ih => intro acc h; exact ih _ (insertTask_sorted t acc h)

theorem sortTasks_sorted (l : List Task) : List.Sorted durLE (sortTasks l) :=
  foldl_insertTask_sorted l [] (by simp)

theorem insertTask_filter (t : Task) (l : List Task)
    (hs : List.Sorted durLE l) (dk : Nat) :
    (insertTask t l).filter (fun u => u.duration == dk) =
      if t.duration = dk
      then l.filter (fun u => u.duration == dk) ++ [t]
      else l.filter (fun u => u.duration == dk) := by
  induction l with
  | nil =>
      show List.filter (fun u => u.duration == dk) [t] = _
      by_cases h : t.duration = dk
      · rw [List.filter_cons_of_pos (by simpa using h), if_pos h]
        try rfl
      · rw [List.filter_cons_of_neg (by simpa using h), if_neg h]
        try rfl
  | cons u us ih =>
      rw [List.sorted_cons] at hs
      by_cases hle : u.duration ≤ t.duration
      · show (List.filter (fun u => u.duration == dk)
            (if u.duration ≤ t.duration then u :: insertTask t us
             else t :: u :: us)) = _
        rw [if_pos hle]
        by_cases hu : u.duration = dk
        · rw [List.filter_cons_of_pos (by simpa using hu),
            List.filter_cons_of_pos (by simpa using hu), ih hs.2]
          by_cases ht : t.duration = dk <;> simp [ht]
        · rw [List.filter_cons_of_neg (by simpa using hu),
            List.filter_cons_of_neg (by simpa using hu), ih hs.2]
      · show (List.filter (fun u => u.duration == dk)
            (if u.duration ≤ t.duration then u :: insertTask t us
             else t :: u :: us)) = _
        rw [if_neg hle]
        by_cases ht : t.duration = dk
        · rw [List.filter_cons_of_pos (by simpa using ht), if_pos ht]
          have hnil : (u :: us).filter (fun u2 => u2.duration == dk) = [] := by
            rw [List.filter_eq_nil_iff]
            intro x hx
            rcases List.mem_cons.mp hx with hx | hx
            · subst hx; simp; omega
            · have := hs.1 x hx
              unfold durLE at this
              simp
              omega
          rw [hnil]
          simp
        · rw [List.filter_cons_of_neg (by simpa using ht), if_neg ht]

theorem foldl_insertTask_filter (l : List Task) (dk : Nat) :
    ∀ acc, List.Sorted durLE acc →
      (l.foldl (fun a t => insertTask t a) acc).filter
          (fun u => u.duration == dk) =
        acc.filter (fun u => u.duration == dk) ++
          l.filter (fun u => u.duration == dk) := by
  induction l with
  | nil => intro acc h; simp
  | cons t ts ih =>
      intro acc h
      calc ((t :: ts).foldl (fun a t2 => insertTask t2 a) acc).filter
            (fun u => u.duration == dk)
          = (ts.foldl (fun a t2 => insertTask t2 a)
              (insertTask t acc)).filter (fun u => u.duration == dk) := rfl
        _ = (insertTask t acc).filter (fun u => u.duration == dk) ++
              ts.filter (fun u => u.duration == dk) :=
            ih _ (insertTask_sorted t acc h)
        _ = _ := by
            rw [insertTask_filter t acc h dk]
            by_cases ht : t.duration = dk
            · rw [if_pos ht, List.filter_cons_of_pos (by simpa using ht)]
              simp
            · rw [if_neg ht, List.filter_cons_of_neg (by simpa using ht)]

/-- Stability of the duration sort: tasks of each fixed duration keep their
original relative order. -/
theorem sortTasks_filter_stable (l : List Task) (dk : Nat) :
    (sortTasks l).filter (fun u => u.duration == dk) =
      l.filter (fun u => u.duration == dk) := by
  have h := foldl_insertTask_filter l dk [] (by simp)
  simpa [sortTasks] using h

/-! ## Lemmas about the grouping keys -/

theorem mem_keyList (k : Nat × String) :
    ∀ ts : List Task, k ∈ keyList ts ↔ ∃ t ∈ ts, taskKey t = k := by
  intro ts
  induction ts with
  | nil => simp [keyList]
  | cons t ts ih =>
      show k ∈ taskKey t :: (keyList ts).filter (fun k2 => k2 != taskKey t) ↔ _
      rw [List.mem_cons]
      constructor
      · intro h
        rcases h with h | h
        · exact ⟨t, by simp, h.symm⟩
        · have h2 := List.mem_of_mem_filter h
          rcases ih.mp h2 with ⟨t2, ht2, hk2⟩
          exact ⟨t2, by simp [ht2], hk2⟩
      · intro ⟨t2, ht2, hk2⟩
        rcases List.mem_cons.mp ht2 with h | h
        · subst h; exact Or.inl hk2.symm
        · by_cases hk : k = taskKey t
          · exact Or.inl hk
          · refine Or.inr (List.mem_filter.mpr ⟨ih.mpr ⟨t2, h, hk2⟩, ?_⟩)
            simpa using hk

theorem keyList_nodup : ∀ ts : List Task, (keyList ts).Nodup := by
  intro ts
  induction ts with
  | nil => simp [keyList]
  | cons t ts ih =>
      show ((taskKey t :: (keyList ts).filter (fun k2 => k2 != taskKey t)).Nodup)
      rw [List.nodup_cons]
      constructor
      · intro h
        have := (List.mem_filter.mp h).2
        simp at this
      · exact ih.filter _

theorem flatMap_congr {α β : Type} (ks : List α) (f g : α → List β)
    (h : ∀ k ∈ ks, f k = g k) : ks.flatMap f = ks.flatMap g := by
  induction ks with
  | nil => rfl
  | cons k ks ih =>
      simp only [List.flatMap_cons]
      rw [h k (by simp), ih (fun k2 hk2 => h k2 (by simp [hk2]))]

theorem flatMap_filter_perm :
    ∀ (ks : List (Nat × String)) (l : List Task), ks.Nodup →
      (∀ t ∈ l, taskKey t ∈ ks) →
      (ks.flatMap (fun k => l.filter (fun t => taskKey t == k))) ~ l := by
  intro ks
  induction ks with
  | nil =>
      intro l _ hcov
      have : l = [] := by
        cases l with
        | nil => rfl
        | cons t ts => exact absurd (hcov t (by simp)) (by simp)
      simp [this]
  | cons k ks ih =>
      intro l hnd hcov
      rw [List.nodup_cons] at hnd
      simp only [List.flatMap_cons]
      have hrw : ks.flatMap (fun k2 => l.filter (fun t => taskKey t == k2)) =
          ks.flatMap (fun k2 =>
            (l.filter (fun t => !(taskKey t == k))).filter
              (fun t => taskKey t == k2)) := by
        refine flatMap_congr ks _ _ (fun k2 hk2 => ?_)
        rw [List.filter_filter]
        refine (List.filter_congr (fun t ht => ?_)).symm
        by_cases hkt : taskKey t = k2
        · have hne : ¬ k2 = k := by
            intro hh
            rw [hh] at hk2
            exact hnd.1 hk2
          simp [hkt, hne]
        · simp [hkt]
      rw [hrw]
      have hcov2 : ∀ t ∈ l.filter (fun t => !(taskKey t == k)), taskKey t ∈ ks := by
        intro t ht
        have h1 := List.mem_of_mem_filter ht
        have h2 := (List.mem_filter.mp ht).2
        rcases List.mem_cons.mp (hcov t h1) with h | h
        · simp [h] at h2
        · exact h
      calc l.filter (fun t => taskKey t == k) ++
            ks.flatMap (fun k2 =>
              (l.filter (fun t => !(taskKey t == k))).filter
                (fun t => taskKey t == k2))
          ~ l.filter (fun t => taskKey t == k) ++
              l.filter (fun t => !(taskKey t == k)) :=
            ((ih _ hnd.2 hcov2).append_left _)
        _ ~ l := List.filter_append_perm _ l

/-! ## The greedy master invariant -/

/-- Invariant carried through the greedy run: the ledger agrees with the
per-(worker, date) sums over the recorded assignments and stays within
`cap`; every assignment is well-formed; assigned tasks plus unassigned
tasks are a permutation of the processed tasks. -/
structure GInv (tasks : List Task) (employees : List Employee) (cap : Nat)
    (processed : List Task) (s : GOut) : Prop where
  coher : ∀ w d, entryVal s.loads w d = sumFor s.assigned w d
  bound : LedgerLE cap s.loads
  wf : ∀ a ∈ s.assigned, a.worker ∈ employees ∧ a.task ∈ tasks ∧
        posName a.task.position = posName a.worker.position ∧
        a.hours = a.task.duration ∧ a.work_date = a.task.date
  perm : Perm ((s.assigned.map (fun a => a.task)) ++ s.unassigned) processed

theorem GInv_perm_congr {tasks employees cap p1 p2 s}
    (h : GInv tasks employees cap p1 s) (hp : Perm p1 p2) :
    GInv tasks employees cap p2 s :=
  ⟨h.coher, h.bound, h.wf, h.perm.trans hp⟩

theorem greedyTask_inv {tasks : List Task} {employees : List Employee}
    {cap : Nat} {processed : List Task} {s : GOut} {kname : String}
    (hi : GInv tasks employees cap processed s)
    (t : Task) (ht : t ∈ tasks) (htk : posName t.position = kname) :
    GInv tasks employees cap (processed ++ [t])
      (greedyTask cap (employees.filter (fun e => empName e == kname)) s t) := by
  unfold greedyTask
  cases hscan : scanWorkers t.date t.duration cap
      (employees.filter (fun e => empName e == kname)) none s.loads with
  | mk best L1 =>
      have hval : ∀ w2 d2, entryVal L1 w2 d2 = entryVal s.loads w2 d2 := by
        intro w2 d2
        have := scanWorkers_snd_entryVal t.date t.duration cap
          (employees.filter (fun e => empName e == kname)) none s.loads w2 d2
        rw [hscan] at this
        exact this
      have hLE : LedgerLE cap L1 := by
        have := scanWorkers_snd_LE t.date t.duration cap
          (employees.filter (fun e => empName e == kname)) none s.loads hi.bound
        rw [hscan] at this
        exact this
      cases best with
      | none =>
          refine ⟨?_, hLE, ?_, ?_⟩
          · intro w d
            rw [hval]
            exact hi.coher w d
          · exact hi.wf
          · show Perm ((s.assigned.map (fun a => a.task)) ++
              (s.unassigned ++ [t])) (processed ++ [t])
            rw [← List.append_assoc]
            exact hi.perm.append_right [t]
      | some p =>
          obtain ⟨w, m⟩ := p
          have hsel : w ∈ employees.filter (fun e => empName e == kname) ∧
              m = entryVal s.loads w.id t.date ∧
              entryVal s.loads w.id t.date + t.duration ≤ cap := by
            refine scanWorkers_some t.date t.duration cap _ s.loads w m ?_
            rw [hscan]
          refine ⟨?_, ?_, ?_, ?_⟩
          · intro w2 d2
            rw [entryVal_ledgerAdd, sumFor_append_single]
            by_cases hc : w2 = w.id ∧ d2 = t.date
            · obtain ⟨h1, h2⟩ := hc
              subst h1
              subst h2
              rw [if_pos ⟨rfl, rfl⟩, if_pos ⟨rfl, rfl⟩, hval, hi.coher]
              rfl
            · rw [if_neg hc,
                if_neg (fun hc2 => hc ⟨hc2.1.symm, hc2.2.symm⟩),
                hval, hi.coher]
              exact (Nat.add_zero _).symm
          · refine ledgerLE_ledgerAdd hLE w.id t.date t.duration ?_
            rw [hval]
            exact hsel.2.2
          · intro a ha
            rcases List.mem_append.mp ha with ha | ha
            · exact hi.wf a ha
            · have ha2 : a = mkAssign t w := by simpa using ha
              subst ha2
              refine ⟨List.mem_of_mem_filter hsel.1, ht, ?_, rfl, rfl⟩
              have hw2 := (List.mem_filter.mp hsel.1).2
              show posName t.position = posName w.position
              rw [htk]
              exact (eq_of_beq hw2).symm
          · show Perm (((s.assigned ++ [mkAssign t w]).map (fun a => a.task)) ++
              s.unassigned) (processed ++ [t])
            rw [List.map_append]
            have hstep : Perm ((s.assigned.map (fun a => a.task)) ++
                ([mkAssign t w].map (fun a => a.task)) ++ s.unassigned)
                ((s.assigned.map (fun a => a.task)) ++ s.unassigned ++ [t]) := by
              show Perm ((s.assigned.map (fun a => a.task)) ++ [t] ++ s.unassigned) _
              rw [List.append_assoc, List.append_assoc]
              exact (List.perm_append_comm).append_left _
            exact hstep.trans (hi.perm.append_right [t])

theorem greedyFold_inv {tasks : List Task} {employees : List Employee}
    {cap : Nat} (kname : String) :
    ∀ (group : List Task) (processed : List Task) (s : GOut),
      GInv tasks employees cap processed s →
      (∀ t ∈ group, t ∈ tasks ∧ posName t.position = kname) →
      GInv tasks employees cap (processed ++ group)
        (group.foldl
          (greedyTask cap (employees.filter (fun e => empName e == kname))) s) := by
  intro group
  induction group with
  | nil =>
      intro processed s hi _
      simpa using hi
  | cons t ts ih =>
      intro processed s hi hmem
      have h1 := greedyTask_inv hi t (hmem t (by simp)).1 (hmem t (by simp)).2
      have h2 := ih (processed ++ [t]) _ h1
        (fun t2 ht2 => hmem t2 (by simp [ht2]))
      rw [List.append_assoc] at h2
      simpa using h2

theorem greedyGroup_inv {tasks : List Task} {employees : List Employee}
    {cap : Nat} {processed : List Task} {s : GOut} (k : Nat × String)
    (hi : GInv tasks employees cap processed s) :
    GInv tasks employees cap
      (processed ++ tasks.filter (fun t => taskKey t == k))
      (greedyGroup cap employees tasks s k) := by
  unfold greedyGroup
  by_cases hav : employees.filter (fun e => empName e == k.2) = []
  · rw [if_pos hav]
    refine ⟨hi.coher, hi.bound, hi.wf, ?_⟩
    show Perm (s.assigned.map (fun a => a.task) ++
      (s.unassigned ++ tasks.filter (fun t => taskKey t == k))) _
    rw [← List.append_assoc]
    exact hi.perm.append_right _
  · rw [if_neg hav]
    have hcond : ∀ t ∈ sortTasks (tasks.filter (fun t => taskKey t == k)),
        t ∈ tasks ∧ posName t.position = k.2 := by
      intro t ht
      have ht2 := (sortTasks_perm _).mem_iff.mp ht
      have ht3 := List.mem_filter.mp ht2
      refine ⟨ht3.1, ?_⟩
      have hk : taskKey t = k := eq_of_beq ht3.2
      exact congrArg Prod.snd hk
    have hfold := greedyFold_inv k.2
      (sortTasks (tasks.filter (fun t => taskKey t == k))) processed s hi hcond
    refine GInv_perm_congr hfold ?_
    exact (sortTasks_perm _).append_left processed

theorem greedyKeys_inv {tasks : List Task} {employees : List Employee}
    {cap : Nat} :
    ∀ (ks : List (Nat × String)) (processed : List Task) (s : GOut),
      GInv tasks employees cap processed s →
      GInv tasks employees cap
        (processed ++
          ks.flatMap (fun k => tasks.filter (fun t => taskKey t == k)))
        (ks.foldl (greedyGroup cap employees tasks) s) := by
  intro ks
  induction ks with
  | nil =>
      intro processed s hi
      simpa using hi
  | cons k ks ih =>
      intro processed s hi
      have h1 := greedyGroup_inv k hi
      have h2 := ih _ _ h1
      rw [List.append_assoc] at h2
      simpa using h2

theorem greedy_master (tasks : List Task) (employees : List Employee)
    (cap : Nat) :
    GInv tasks employees cap tasks
      (assign_tasks_using_greedy tasks employees cap) := by
  have h0 : GInv tasks employees cap [] ⟨[], [], []⟩ := by
    refine ⟨fun w d => rfl, ?_, ?_, ?_⟩
    · intro p hp
      exact absurd hp (by simp)
    · intro a ha
      exact absurd ha (by simp)
    · exact Perm.refl []
  have h := greedyKeys_inv (keyList tasks) [] ⟨[], [], []⟩ h0
  rw [List.nil_append] at h
  refine GInv_perm_congr h ?_
  exact flatMap_filter_perm (keyList tasks) tasks (keyList_nodup tasks)
    (fun t ht => (mem_keyList _ tasks).mpr ⟨t, ht, rfl⟩)

/-! ## Lemmas about the exact strategy -/

/-- The employees eligible for task `t` whose variable is solved to 1. -/
def elig (employees : List Employee) (sol : Nat × Nat → Bool) (t : Task) :
    List Employee :=
  employees.filter (fun e => posMatch t e && sol (t.id, e.id))

/-- The chosen pairs contributed by one task. -/
def innerFor (employees : List Employee) (sol : Nat × Nat → Bool) (t : Task) :
    List (Task × Employee) :=
  ((employees.filter (fun e => posMatch t e)).map (fun e => (t, e))).filter
    (fun p => sol (p.1.id, p.2.id))

theorem innerFor_eq (employees : List Employee) (sol : Nat × Nat → Bool)
    (t : Task) :
    innerFor employees sol t = (elig employees sol t).map (fun e => (t, e)) := by
  unfold innerFor elig
  rw [List.filter_map, List.filter_filter]
  refine congrArg (List.map _) (List.filter_congr (fun e he => ?_))
  simp [Function.comp, Bool.and_comm]

theorem lpChosen_eq_flatMap (tasks : List Task) (employees : List Employee)
    (sol : Nat × Nat → Bool) :
    lpChosen tasks employees sol = tasks.flatMap (innerFor employees sol) := by
  unfold lpChosen lpPairs
  induction tasks with
  | nil => rfl
  | cons t ts ih =>
      simp only [List.flatMap_cons, List.filter_append]
      rw [ih]
      rfl

theorem mem_lpPairs (tasks : List Task) (employees : List Employee)
    (p : Task × Employee) :
    p ∈ lpPairs tasks employees ↔
      p.1 ∈ tasks ∧ p.2 ∈ employees ∧ posMatch p.1 p.2 = true := by
  unfold lpPairs
  rw [List.mem_flatMap]
  constructor
  · intro ⟨t, ht, hp⟩
    rcases List.mem_map.mp hp with ⟨e, he, hpe⟩
    have h1 := List.mem_of_mem_filter he
    have h2 := (List.mem_filter.mp he).2
    subst hpe
    exact ⟨ht, h1, h2⟩
  · intro ⟨h1, h2, h3⟩
    refine ⟨p.1, h1, List.mem_map.mpr ⟨p.2, List.mem_filter.mpr ⟨h2, h3⟩, rfl⟩⟩

theorem mem_lpChosen (tasks : List Task) (employees : List Employee)
    (sol : Nat × Nat → Bool) (p : Task × Employee) :
    p ∈ lpChosen tasks employees sol ↔
      p.1 ∈ tasks ∧ p.2 ∈ employees ∧ posMatch p.1 p.2 = true ∧
        sol (p.1.id, p.2.id) = true := by
  unfold lpChosen
  rw [List.mem_filter, mem_lpPairs]
  constructor
  · intro ⟨⟨h1, h2, h3⟩, h4⟩
    exact ⟨h1, h2, h3, h4⟩
  · intro ⟨h1, h2, h3, h4⟩
    exact ⟨⟨h1, h2, h3⟩, h4⟩

/-- Sum of chosen durations for worker id `w` on date `d`. -/
def pairSum (chosen : List (Task × Employee)) (w d : Nat) : Nat :=
  ((chosen.filter (fun p => p.2.id == w && p.1.date == d)).map
    (fun p => p.1.duration)).sum

theorem pairSum_cons (p : Task × Employee) (ps : List (Task × Employee))
    (w d : Nat) :
    pairSum (p :: ps) w d =
      (if p.2.id = w ∧ p.1.date = d then p.1.duration else 0) +
        pairSum ps w d := by
  unfold pairSum
  by_cases hc : p.2.id = w ∧ p.1.date = d
  · rw [List.filter_cons_of_pos (by simp [hc.1, hc.2]), if_pos hc]
    rfl
  · rw [List.filter_cons_of_neg ?_, if_neg hc]
    · exact (Nat.zero_add _).symm
    · simp only [Bool.and_eq_true, beq_iff_eq]
      intro h2
      exact hc h2

theorem pairSum_append (xs ys : List (Task × Employee)) (w d : Nat) :
    pairSum (xs ++ ys) w d = pairSum xs w d + pairSum ys w d := by
  unfold pairSum
  rw [List.filter_append, List.map_append, List.sum_append]

theorem entryVal_foldl_ledgerAdd (chosen : List (Task × Employee)) :
    ∀ (L : Ledger) (w d : Nat),
      entryVal (chosen.foldl
        (fun L2 p => ledgerAdd L2 p.2.id p.1.date p.1.duration) L) w d =
        entryVal L w d + pairSum chosen w d := by
  induction chosen with
  | nil => intro L w d; simp [pairSum]
  | cons p ps ih =>
      intro L w d
      rw [List.foldl_cons, ih, entryVal_ledgerAdd, pairSum_cons]
      by_cases hc : w = p.2.id ∧ d = p.1.date
      · rw [if_pos hc, if_pos ⟨hc.1.symm, hc.2.symm⟩, hc.1, hc.2]
        omega
      · rw [if_neg hc, if_neg (fun h2 => hc ⟨h2.1.symm, h2.2.symm⟩)]
        omega

theorem entryVal_lpLoads (chosen : List (Task × Employee)) (w d : Nat) :
    entryVal (lpLoads chosen) w d = pairSum chosen w d := by
  unfold lpLoads
  rw [entryVal_foldl_ledgerAdd]
  exact Nat.zero_add _

theorem ledgerLE_foldl_ledgerAdd {cap : Nat} (chosen : List (Task × Employee)) :
    ∀ (L : Ledger), LedgerLE cap L →
      (∀ w d, entryVal L w d + pairSum chosen w d ≤ cap) →
      LedgerLE cap (chosen.foldl
        (fun L2 p => ledgerAdd L2 p.2.id p.1.date p.1.duration) L) := by
  induction chosen with
  | nil => intro L hL _; exact hL
  | cons p ps ih =>
      intro L hL hsum
      rw [List.foldl_cons]
      refine ih _ (ledgerLE_ledgerAdd hL _ _ _ ?_) ?_
      · have := hsum p.2.id p.1.date
        rw [pairSum_cons, if_pos ⟨rfl, rfl⟩] at this
        omega
      · intro w d
        rw [entryVal_ledgerAdd]
        have := hsum w d
        rw [pairSum_cons] at this
        by_cases hc : w = p.2.id ∧ d = p.1.date
        · rw [if_pos hc]
          rw [if_pos ⟨hc.1.symm, hc.2.symm⟩] at this
          rw [hc.1, hc.2] at this ⊢
          omega
        · rw [if_neg hc]
          rw [if_neg (fun h2 => hc ⟨h2.1.symm, h2.2.symm⟩)] at this
          omega

theorem ledgerLE_lpLoads {cap : Nat} (chosen : List (Task × Employee))
    (h : ∀ w d, pairSum chosen w d ≤ cap) : LedgerLE cap (lpLoads chosen) := by
  unfold lpLoads
  refine ledgerLE_foldl_ledgerAdd chosen [] ?_ ?_
  · intro p hp
    exact absurd hp (by simp)
  · intro w d
    have := h w d
    have h0 : entryVal [] w d = 0 := rfl
    omega

theorem sumFor_map_mkAssign (chosen : List (Task × Employee)) (w d : Nat) :
    sumFor (chosen.map (fun p => mkAssign p.1 p.2)) w d = pairSum chosen w d := by
  induction chosen with
  | nil => rfl
  | cons p ps ih =>
      rw [List.map_cons]
      show sumFor (mkAssign p.1 p.2 :: ps.map (fun p => mkAssign p.1 p.2)) w d = _
      rw [pairSum_cons, ← ih]
      unfold sumFor
      by_cases hc : p.2.id = w ∧ p.1.date = d
      · rw [List.filter_cons_of_pos (by simp [mkAssign, hc.1, hc.2]), if_pos hc]
        rfl
      · rw [List.filter_cons_of_neg ?_, if_neg hc]
        · exact (Nat.zero_add _).symm
        · simp only [Bool.and_eq_true, beq_iff_eq, mkAssign]
          intro h2
          exact hc h2

theorem filter_id_unique (employees : List Employee)
    (hnd : (employees.map Employee.id).Nodup) (e : Employee)
    (he : e ∈ employees) (c : Employee → Bool) :
    employees.filter (fun e2 => c e2 && e2.id == e.id) =
      if c e then [e] else [] := by
  induction employees with
  | nil => cases he
  | cons e0 rest ih =>
      rw [List.map_cons, List.nodup_cons] at hnd
      rcases List.mem_cons.mp he with he0 | he0
      · subst he0
        have hrest : rest.filter (fun e2 => c e2 && e2.id == e.id) = [] := by
          rw [List.filter_eq_nil_iff]
          intro x hx
          simp only [Bool.and_eq_true, beq_iff_eq, not_and]
          intro _ hid
          exact absurd (hid ▸ List.mem_map_of_mem Employee.id hx) hnd.1
        by_cases hc0 : c e
        · rw [List.filter_cons_of_pos (by simp [hc0]), hrest, if_pos hc0]
        · rw [List.filter_cons_of_neg (by simp [hc0]), hrest, if_neg hc0]
      · have hne : (e0.id == e.id) = false := by
          rw [beq_eq_false_iff_ne]
          intro hid
          exact absurd (hid ▸ List.mem_map_of_mem Employee.id he0) hnd.1
        rw [List.filter_cons_of_neg (by simp [hne]), ih hnd.2 he0]

theorem pairSum_innerFor (employees : List Employee) (sol : Nat × Nat → Bool)
    (t : Task) (e : Employee) (d : Nat)
    (hnd : (employees.map Employee.id).Nodup) (he : e ∈ employees) :
    pairSum (innerFor employees sol t) e.id d =
      if t.date = d ∧ posMatch t e = true ∧ sol (t.id, e.id) = true
      then t.duration else 0 := by
  rw [innerFor_eq]
  unfold pairSum
  rw [List.filter_map, List.map_map]
  by_cases hd : t.date = d
  · have hcong : (elig employees sol t).filter
        (fun e2 => ((fun p : Task × Employee => p.2.id == e.id && p.1.date == d) ∘
          (fun e2 => (t, e2))) e2) =
        (elig employees sol t).filter (fun e2 => e2.id == e.id) := by
      refine List.filter_congr (fun e2 he2 => ?_)
      simp [Function.comp, hd]
    rw [hcong]
    unfold elig
    rw [List.filter_filter]
    have hcong2 : employees.filter
        (fun e2 => (e2.id == e.id) && (posMatch t e2 && sol (t.id, e2.id))) =
        employees.filter
          (fun e2 => (posMatch t e2 && sol (t.id, e2.id)) && e2.id == e.id) :=
      List.filter_congr (fun e2 he2 => Bool.and_comm _ _)
    rw [hcong2, filter_id_unique employees hnd e he _]
    by_cases hce : (posMatch t e && sol (t.id, e.id)) = true
    · rw [if_pos hce, if_pos ⟨hd, (Bool.and_eq_true _ _).mp hce⟩]
      simp
    · rw [if_neg hce, if_neg ?_]
      · rfl
      · intro hcc
        exact hce ((Bool.and_eq_true _ _).mpr ⟨hcc.2.1, hcc.2.2⟩)
  · have hnil : (elig employees sol t).filter
        (fun e2 => ((fun p : Task × Employee => p.2.id == e.id && p.1.date == d) ∘
          (fun e2 => (t, e2))) e2) = [] := by
      rw [List.filter_eq_nil_iff]
      intro x hx
      simp [Function.comp, hd]
    rw [hnil, if_neg (fun hcc => hd hcc.1)]
    rfl

theorem sum_filter_eq_sum_ite (l : List Task) (c : Task → Bool) :
    ((l.filter c).map Task.duration).sum =
      (l.map (fun t => if c t then t.duration else 0)).sum := by
  induction l with
  | nil => rfl
  | cons t ts ih =>
      by_cases hc : c t
      · rw [List.filter_cons_of_pos hc, List.map_cons, List.map_cons,
          List.sum_cons, List.sum_cons, if_pos hc, ih]
      · rw [List.filter_cons_of_neg hc, List.map_cons, List.sum_cons,
          if_neg hc, ih]
        omega

theorem pairSum_flatMap (tasks : List Task)
    (f : Task → List (Task × Employee)) (w d : Nat) :
    pairSum (tasks.flatMap f) w d =
      (tasks.map (fun t => pairSum (f t) w d)).sum := by
  induction tasks with
  | nil => rfl
  | cons t ts ih =>
      rw [List.flatMap_cons, pairSum_append, List.map_cons, List.sum_cons, ih]

theorem pairSum_chosen_le (tasks : List Task) (employees : List Employee)
    (cap : Nat) (sol : Nat × Nat → Bool)
    (hndE : (employees.map Employee.id).Nodup)
    (hB : lpConstraintB tasks employees cap sol) :
    ∀ w d, pairSum (lpChosen tasks employees sol) w d ≤ cap := by
  intro w d
  by_cases hw : ∃ e ∈ employees, e.id = w
  · obtain ⟨e, he, hew⟩ := hw
    subst hew
    rw [lpChosen_eq_flatMap, pairSum_flatMap]
    have hmapeq : tasks.map
        (fun t => pairSum (innerFor employees sol t) e.id d) =
        tasks.map (fun t =>
          if (t.date == d && posMatch t e && sol (t.id, e.id)) = true
          then t.duration else 0) := by
      refine List.map_congr_left (fun t ht => ?_)
      rw [pairSum_innerFor employees sol t e d hndE he]
      by_cases h1 : t.date = d <;> by_cases h2 : posMatch t e = true <;>
        by_cases h3 : sol (t.id, e.id) = true <;>
        simp [h1, h2, h3]
    rw [hmapeq]
    by_cases hd : d ∈ tasks.map Task.date
    · have hcb := hB e he d hd
      rw [sum_filter_eq_sum_ite] at hcb
      exact hcb
    · refine Nat.le_trans (Nat.le_of_eq (List.sum_eq_zero ?_)) (Nat.zero_le cap)
      intro x hx
      rcases List.mem_map.mp hx with ⟨t, ht, hxt⟩
      have hdt : ¬ t.date = d := by
        intro hh
        exact hd (hh ▸ List.mem_map_of_mem Task.date ht)
      rw [← hxt]
      simp [hdt]
  · unfold pairSum
    have hnil : (lpChosen tasks employees sol).filter
        (fun p => p.2.id == w && p.1.date == d) = [] := by
      rw [List.filter_eq_nil_iff]
      intro p hp
      have hmem := (mem_lpChosen tasks employees sol p).mp hp
      simp only [Bool.and_eq_true, beq_iff_eq, not_and]
      intro hid _
      exact hw ⟨p.2, hmem.2.1, hid⟩
    rw [hnil]
    exact Nat.zero_le cap

theorem nodup_id_inj_task (tasks : List Task)
    (hnd : (tasks.map Task.id).Nodup) :
    ∀ t1 ∈ tasks, ∀ t2 ∈ tasks, t1.id = t2.id → t1 = t2 := by
  intro t1 h1 t2 h2 hid
  exact List.inj_on_of_nodup_map hnd h1 h2 hid

theorem nodup_id_inj_emp (employees : List Employee)
    (hnd : (employees.map Employee.id).Nodup) :
    ∀ e1 ∈ employees, ∀ e2 ∈ employees, e1.id = e2.id → e1 = e2 := by
  intro e1 h1 e2 h2 hid
  exact List.inj_on_of_nodup_map hnd h1 h2 hid

theorem mem_innerFor (employees : List Employee) (sol : Nat × Nat → Bool)
    (t : Task) (p : Task × Employee) :
    p ∈ innerFor employees sol t ↔
      p.1 = t ∧ p.2 ∈ employees ∧ posMatch t p.2 = true ∧
        sol (t.id, p.2.id) = true := by
  rw [innerFor_eq]
  constructor
  · intro hp
    rcases List.mem_map.mp hp with ⟨e, he, hpe⟩
    have h1 := List.mem_of_mem_filter he
    have h2 := (List.mem_filter.mp he).2
    rw [Bool.and_eq_true] at h2
    subst hpe
    exact ⟨rfl, h1, h2.1, h2.2⟩
  · intro ⟨h1, h2, h3, h4⟩
    refine List.mem_map.mpr ⟨p.2, List.mem_filter.mpr ⟨h2, ?_⟩, ?_⟩
    · rw [Bool.and_eq_true]
      exact ⟨h3, h4⟩
    · rw [← h1]

theorem chosenIds_iff (tasks : List Task) (employees : List Employee)
    (sol : Nat × Nat → Bool) (hndT : (tasks.map Task.id).Nodup)
    (t : Task) (ht : t ∈ tasks) :
    t.id ∈ (lpChosen tasks employees sol).map (fun p => p.1.id) ↔
      innerFor employees sol t ≠ [] := by
  constructor
  · intro h
    rcases List.mem_map.mp h with ⟨p, hp, hpid⟩
    have hmem := (mem_lpChosen tasks employees sol p).mp hp
    have hpt : p.1 = t := nodup_id_inj_task tasks hndT p.1 hmem.1 t ht hpid
    refine List.ne_nil_of_mem (a := p) ?_
    rw [mem_innerFor]
    exact ⟨hpt, hmem.2.1, hpt ▸ hmem.2.2.1, hpt ▸ hmem.2.2.2⟩
  · intro h
    rcases List.exists_mem_of_ne_nil _ h with ⟨p, hp⟩
    have hmem := (mem_innerFor employees sol t p).mp hp
    refine List.mem_map.mpr ⟨p, ?_, by rw [hmem.1]⟩
    rw [mem_lpChosen]
    exact ⟨hmem.1 ▸ ht, hmem.2.1, hmem.1 ▸ hmem.2.2.1, hmem.1 ▸ hmem.2.2.2⟩

theorem count_split (l : List Task) (g : Task → Nat)
    (hle : ∀ t ∈ l, g t ≤ 1) :
    (l.map g).sum + (l.filter (fun t => g t == 0)).length = l.length := by
  induction l with
  | nil => rfl
  | cons t ts ih =>
      have hts := ih (fun t2 ht2 => hle t2 (by simp [ht2]))
      have h1 := hle t (by simp)
      rw [List.map_cons, List.sum_cons]
      by_cases h0 : g t = 0
      · rw [List.filter_cons_of_pos (by simp [h0]), h0]
        simp only [List.length_cons]
        omega
      · rw [List.filter_cons_of_neg (by simp [h0])]
        simp only [List.length_cons]
        omega

theorem lp_counts (tasks : List Task) (employees : List Employee)
    (sol : Nat × Nat → Bool) (hndT : (tasks.map Task.id).Nodup)
    (hA : lpConstraintA tasks employees sol) :
    (lpParse tasks employees sol).assigned.length +
      (lpParse tasks employees sol).unassigned.length = tasks.length := by
  show ((lpChosen tasks employees sol).map (fun p => mkAssign p.1 p.2)).length +
    (tasks.filter (fun t =>
      !(decide (t.id ∈ (lpChosen tasks employees sol).map
        (fun p => p.1.id))))).length = tasks.length
  rw [List.length_map]
  have hfc : tasks.filter (fun t =>
      !(decide (t.id ∈ (lpChosen tasks employees sol).map (fun p => p.1.id)))) =
      tasks.filter (fun t => (innerFor employees sol t).length == 0) := by
    refine List.filter_congr (fun t ht => ?_)
    by_cases hne : innerFor employees sol t = []
    · have h1 : ¬ t.id ∈ (lpChosen tasks employees sol).map (fun p => p.1.id) := by
        rw [chosenIds_iff tasks employees sol hndT t ht]
        simp [hne]
      simp [h1, hne]
    · have h1 : t.id ∈ (lpChosen tasks employees sol).map (fun p => p.1.id) :=
        (chosenIds_iff tasks employees sol hndT t ht).mpr hne
      simp [h1, hne, List.length_eq_zero]
  rw [hfc, lpChosen_eq_flatMap, List.length_flatMap]
  refine count_split tasks (fun t => (innerFor employees sol t).length) ?_
  intro t ht
  show (innerFor employees sol t).length ≤ 1
  rw [innerFor_eq, List.length_map]
  exact hA t ht

theorem lpParse_wf (tasks : List Task) (employees : List Employee)
    (sol : Nat × Nat → Bool) :
    ∀ a ∈ (lpParse tasks employees sol).assigned,
      a.worker ∈ employees ∧ a.task ∈ tasks ∧
        posKey a.task.position = posKey a.worker.position ∧
        a.hours = a.task.duration ∧ a.work_date = a.task.date := by
  intro a ha
  rcases List.mem_map.mp ha with ⟨p, hp, hpa⟩
  have h := (mem_lpChosen tasks employees sol p).mp hp
  subst hpa
  exact ⟨h.2.1, h.1, eq_of_beq h.2.2.1, rfl, rfl⟩

theorem lpParse_coher (tasks : List Task) (employees : List Employee)
    (sol : Nat × Nat → Bool) (w d : Nat) :
    entryVal (lpParse tasks employees sol).loads w d =
      sumFor (lpParse tasks employees sol).assigned w d := by
  show entryVal (lpLoads (lpChosen tasks employees sol)) w d =
    sumFor ((lpChosen tasks employees sol).map (fun p => mkAssign p.1 p.2)) w d
  rw [entryVal_lpLoads, sumFor_map_mkAssign]

instance (tasks : List Task) (employees : List Employee)
    (sol : Nat × Nat → Bool) : Decidable (lpConstraintA tasks employees sol) := by
  unfold lpConstraintA
  infer_instance

instance (tasks : List Task) (employees : List Employee) (cap : Nat)
    (sol : Nat × Nat → Bool) :
    Decidable (lpConstraintB tasks employees cap sol) := by
  unfold lpConstraintB
  infer_instance

/-! ## Concrete inputs used by counterexamples and witnesses -/

/-- A real Position literally named like the sentinel. -/
def posU : Position := ⟨1, "Unassigned"⟩

/-- A task requiring the Position named "Unassigned". -/
def taskU : Task := ⟨1, some posU, 4, 0⟩

/-- A worker with no position. -/
def empNoPos : Employee := ⟨1, "alice", none⟩

/-- An ordinary position. -/
def posP : Position := ⟨2, "P"⟩

/-- A task requiring position P. -/
def taskP : Task := ⟨1, some posP, 4, 0⟩

/-- A worker holding position P. -/
def empP : Employee := ⟨1, "bob", some posP⟩

/-- A second worker, no position. -/
def empB : Employee := ⟨2, "carol", none⟩

/-! ## Claim theorems -/

/-- C1: for every task list, worker list and positive dailyCapacity, and for
both strategies, the per-(worker, date) sum of assigned hours stays within
`dailyCapacity`, and every capacity-ledger entry `h` satisfies
`0 ≤ h ≤ dailyCapacity` (the lower bound is inherent: hours are naturals).
The exact strategy's result is conditional on the solver returning a
solution satisfying the posted daily-capacity constraints, with ids unique
as database primary keys are. -/
theorem c1_capacity_invariant (tasks : List Task) (employees : List Employee)
    (cap : Nat) (vals : Nat × Nat → Option Int) (r : GOut)
    (hcap : 0 < cap)
    (hndE : (employees.map Employee.id).Nodup)
    (hB : lpConstraintB tasks employees cap (solOf vals))
    (hok : assign_tasks_using_lp tasks employees cap
      (SolveOutcome.finished vals) = Except.ok r) :
    (∀ w d, sumFor (assign_tasks_using_greedy tasks employees cap).assigned
        w d ≤ cap) ∧
    LedgerLE cap (assign_tasks_using_greedy tasks employees cap).loads ∧
    (∀ w d, sumFor r.assigned w d ≤ cap) ∧
    LedgerLE cap r.loads := by
  have hg := greedy_master tasks employees cap
  have hr : lpParse tasks employees (solOf vals) = r := by
    injection hok
  subst hr
  have hpair := pairSum_chosen_le tasks employees cap (solOf vals) hndE hB
  refine ⟨?_, hg.bound, ?_, ?_⟩
  · intro w d
    rw [← hg.coher w d]
    exact entryVal_le_of_ledgerLE hg.bound w d
  · intro w d
    have h2 : sumFor (lpParse tasks employees (solOf vals)).assigned w d =
        pairSum (lpChosen tasks employees (solOf vals)) w d := by
      show sumFor ((lpChosen tasks employees (solOf vals)).map
        (fun p => mkAssign p.1 p.2)) w d = _
      exact sumFor_map_mkAssign _ w d
    rw [h2]
    exact hpair w d
  · exact ledgerLE_lpLoads _ hpair

/-- C1 witness: a single 4-hour task and a matching worker, capacity 8,
with the solver assigning the one variable. -/
theorem c1_capacity_invariant_witness :
    (0 < 8 ∧ ([empP].map Employee.id).Nodup ∧
      lpConstraintB [taskP] [empP] 8 (solOf (fun _k => some 1)) ∧
      assign_tasks_using_lp [taskP] [empP] 8
        (SolveOutcome.finished (fun _k => some 1)) =
        Except.ok (lpParse [taskP] [empP] (solOf (fun _k => some 1)))) ∧
    ((∀ w d, sumFor (assign_tasks_using_greedy [taskP] [empP] 8).assigned
        w d ≤ 8) ∧
     LedgerLE 8 (assign_tasks_using_greedy [taskP] [empP] 8).loads ∧
     (∀ w d, sumFor (lpParse [taskP] [empP] (solOf (fun _k => some 1))).assigned
        w d ≤ 8) ∧
     LedgerLE 8 (lpParse [taskP] [empP] (solOf (fun _k => some 1))).loads) :=
  ⟨⟨by decide, by decide, by decide, rfl⟩,
    c1_capacity_invariant [taskP] [empP] 8 (fun _k => some 1) _
      (by decide) (by decide) (by decide) rfl⟩

/-- C2: for both strategies, every input task lands in exactly one of the
two output lists: `count(assignments) + count(unassigned) = count(tasks)`.
The exact strategy's count is conditional on the solver respecting the
posted one-assignee-per-task constraint and on distinct task ids. -/
theorem c2_conservation (tasks : List Task) (employees : List Employee)
    (cap : Nat) (vals : Nat × Nat → Option Int) (r : GOut)
    (hndT : (tasks.map Task.id).Nodup)
    (hA : lpConstraintA tasks employees (solOf vals))
    (hok : assign_tasks_using_lp tasks employees cap
      (SolveOutcome.finished vals) = Except.ok r) :
    (assign_tasks_using_greedy tasks employees cap).assigned.length +
      (assign_tasks_using_greedy tasks employees cap).unassigned.length =
      tasks.length ∧
    r.assigned.length + r.unassigned.length = tasks.length := by
  have hg := greedy_master tasks employees cap
  have hr : lpParse tasks employees (solOf vals) = r := by
    injection hok
  subst hr
  constructor
  · have hlen := hg.perm.length_eq
    rw [List.length_append, List.length_map] at hlen
    exact hlen
  · exact lp_counts tasks employees (solOf vals) hndT hA

/-- C2 witness: same concrete instance as C1. -/
theorem c2_conservation_witness :
    (([taskP].map Task.id).Nodup ∧
      lpConstraintA [taskP] [empP] (solOf (fun _k => some 1)) ∧
      assign_tasks_using_lp [taskP] [empP] 8
        (SolveOutcome.finished (fun _k => some 1)) =
        Except.ok (lpParse [taskP] [empP] (solOf (fun _k => some 1)))) ∧
    ((assign_tasks_using_greedy [taskP] [empP] 8).assigned.length +
        (assign_tasks_using_greedy [taskP] [empP] 8).unassigned.length = 1 ∧
      (lpParse [taskP] [empP] (solOf (fun _k => some 1))).assigned.length +
        (lpParse [taskP] [empP] (solOf (fun _k => some 1))).unassigned.length = 1) :=
  ⟨⟨by decide, by decide, rfl⟩,
    c2_conservation [taskP] [empP] 8 (fun _k => some 1) _
      (by decide) (by decide) rfl⟩

/-- C3 counterexample: the claim requires a missing position to match only
a missing position ("one shared sentinel value matching only the sentinel
on the other side").  The greedy strategy compares position names with the
name sentinel "Unassigned"; a task whose position is literally named
"Unassigned" is therefore assigned to a worker with no position at all. -/
theorem c3_counterexample :
    ∃ a ∈ (assign_tasks_using_greedy [taskU] [empNoPos] 8).assigned,
      posKey a.task.position ≠ posKey a.worker.position := by decide

/-- C3 amended: every produced Assignment pairs a task with a worker whose
position key matches the task's under the strategy's own key — the greedy
strategy compares position names (a missing position mapped to the name
"Unassigned", which a real position may share), the exact strategy compares
position ids (a missing position mapped to a sentinel no id equals) — and
the Assignment's hours equal the task's duration and its work date equals
the task's date. -/
theorem c3_assignment_shape (tasks : List Task) (employees : List Employee)
    (cap : Nat) (vals : Nat × Nat → Option Int) (r : GOut)
    (hok : assign_tasks_using_lp tasks employees cap
      (SolveOutcome.finished vals) = Except.ok r) :
    (∀ a ∈ (assign_tasks_using_greedy tasks employees cap).assigned,
      posName a.task.position = posName a.worker.position ∧
      a.hours = a.task.duration ∧ a.work_date = a.task.date) ∧
    (∀ a ∈ r.assigned,
      posKey a.task.position = posKey a.worker.position ∧
      a.hours = a.task.duration ∧ a.work_date = a.task.date) := by
  have hg := greedy_master tasks employees cap
  have hr : lpParse tasks employees (solOf vals) = r := by
    injection hok
  subst hr
  constructor
  · intro a ha
    have h := hg.wf a ha
    exact ⟨h.2.2.1, h.2.2.2.1, h.2.2.2.2⟩
  · intro a ha
    have h := lpParse_wf tasks employees (solOf vals) a ha
    exact ⟨h.2.2.1, h.2.2.2.1, h.2.2.2.2⟩

/-- C3 witness: the concrete instance of C1, for both strategies. -/
theorem c3_assignment_shape_witness :
    (assign_tasks_using_lp [taskP] [empP] 8
        (SolveOutcome.finished (fun _k => some 1)) =
        Except.ok (lpParse [taskP] [empP] (solOf (fun _k => some 1)))) ∧
    ((∀ a ∈ (assign_tasks_using_greedy [taskP] [empP] 8).assigned,
        posName a.task.position = posName a.worker.position ∧
        a.hours = a.task.duration ∧ a.work_date = a.task.date) ∧
      (∀ a ∈ (lpParse [taskP] [empP] (solOf (fun _k => some 1))).assigned,
        posKey a.task.position = posKey a.worker.position ∧
        a.hours = a.task.duration ∧ a.work_date = a.task.date)) :=
  ⟨rfl, c3_assignment_shape [taskP] [empP] 8 (fun _k => some 1) _ rfl⟩

/-- C7: within a group the greedy strategy processes tasks in ascending
duration order with a stable sort (equal durations keep input order), and
the worker scan picks exactly the first worker attaining the minimum
current ledger load among those with headroom
(`load + duration ≤ dailyCapacity`). -/
theorem c7_greedy_policy (l : List Task) (d dur cap : Nat)
    (ws : List Employee) (L : Ledger) :
    (Perm (sortTasks l) l ∧ List.Sorted durLE (sortTasks l) ∧
      ∀ dk, (sortTasks l).filter (fun u => u.duration == dk) =
        l.filter (fun u => u.duration == dk)) ∧
    (scanWorkers d dur cap ws none L).1 =
      (firstMinBy (fun w => entryVal L w.id d)
        (ws.filter (fun w => entryVal L w.id d + dur ≤ cap))).map
        (fun w => (w, entryVal L w.id d)) := by
  refine ⟨⟨sortTasks_perm l, sortTasks_sorted l,
    fun dk => sortTasks_filter_stable l dk⟩, ?_⟩
  rw [scanWorkers_fst_eq, pureScan_eq_firstMinBy]

/-- C10: the two strategies use different position keys.  The greedy
strategy keys on names ("Unassigned" for a missing position), the exact
strategy on ids (string sentinel for a missing position, equal to no id):
for a Position literally named "Unassigned", a worker without a position is
eligible under greedy — the task is assigned — but no LP variable is even
created, so under the exact strategy the task is unassigned for every
solver outcome. -/
theorem c10_matching_divergence :
    (assign_tasks_using_greedy [taskU] [empNoPos] 8).assigned =
      [mkAssign taskU empNoPos] ∧
    lpPairs [taskU] [empNoPos] = [] ∧
    (∀ sol, (lpParse [taskU] [empNoPos] sol).assigned = [] ∧
      (lpParse [taskU] [empNoPos] sol).unassigned = [taskU]) := by
  refine ⟨by decide, by decide, fun sol => ⟨rfl, rfl⟩⟩

/-- C5 counterexample: the orchestrator itself does not reject an unknown
strategy name — `create_task_assignments` silently runs the LP strategy for
any value other than "greedy". -/
theorem c5_counterexample :
    create_task_assignments_dispatch "invalid_method" = Strategy.lp ∧
    "invalid_method" ≠ "lp" ∧ "invalid_method" ≠ "greedy" := by decide

/-- C5 amended: unknown strategy names are rejected at the API boundary
(the request parameter is a Literal restricted to "lp"/"greedy", so
validation fails before any assignment logic runs); the orchestrator
`create_task_assignments` itself treats every non-"greedy" value, unknown
names included, as the LP strategy. -/
theorem c5_strategy_dispatch (method : String)
    (h1 : method ≠ "lp") (h2 : method ≠ "greedy") :
    api_method_validate method = none ∧
    create_task_assignments_dispatch method = Strategy.lp := by
  unfold api_method_validate create_task_assignments_dispatch
  rw [if_neg h1, if_neg h2, if_neg h2]
  exact ⟨rfl, rfl⟩

/-- C5 witness. -/
theorem c5_strategy_dispatch_witness :
    ("invalid_method" ≠ "lp" ∧ "invalid_method" ≠ "greedy") ∧
    (api_method_validate "invalid_method" = none ∧
      create_task_assignments_dispatch "invalid_method" = Strategy.lp) :=
  ⟨⟨by decide, by decide⟩,
    c5_strategy_dispatch "invalid_method" (by decide) (by decide)⟩

/-- C8 counterexample: an inconclusive solve — `problem.solve()` returns
without raising but leaves every variable without a value (pulp does this
on timeout / Undefined / NotSolved statuses; only `PulpSolverError` is
caught) — makes the call return ok with an empty assignment list and every
task unassigned, exactly the shape of the benign no-eligible-worker
outcome, even though an eligible pair (a created variable) exists. -/
theorem c8_counterexample :
    assign_tasks_using_lp [taskP] [empP] 8
        (SolveOutcome.finished (fun _k => none)) =
      Except.ok (lpParse [taskP] [empP] (solOf (fun _k => none))) ∧
    (lpParse [taskP] [empP] (solOf (fun _k => none))).assigned = [] ∧
    (lpParse [taskP] [empP] (solOf (fun _k => none))).unassigned = [taskP] ∧
    lpPairs [taskP] [empP] ≠ [] := by
  refine ⟨rfl, by decide, by decide, by decide⟩

/-- C8 amended: only a raised `PulpSolverError` is propagated (re-raised as
`RuntimeError("Failed to solve LP problem")`); a solve that terminates
without raising is parsed as-is, and when it leaves every variable unset
the call silently returns ok with all tasks unassigned. -/
theorem c8_solver_failure (tasks : List Task) (employees : List Employee)
    (cap : Nat) :
    assign_tasks_using_lp tasks employees cap SolveOutcome.failure =
      Except.error "Failed to solve LP problem" ∧
    (∀ vals, assign_tasks_using_lp tasks employees cap
      (SolveOutcome.finished vals) =
        Except.ok (lpParse tasks employees (solOf vals))) ∧
    assign_tasks_using_lp tasks employees cap
        (SolveOutcome.finished (fun _k => none)) =
      Except.ok { assigned := [], unassigned := tasks, loads := [] } := by
  refine ⟨rfl, fun vals => rfl, ?_⟩
  show Except.ok (lpParse tasks employees (solOf (fun _k => none))) = _
  have hchosen : lpChosen tasks employees (solOf (fun _k => none)) = [] := by
    unfold lpChosen
    rw [List.filter_eq_nil_iff]
    intro p hp
    simp [solOf]
  unfold lpParse
  rw [hchosen]
  simp [lpLoads]

/-! ## KPI calculator lemmas -/

theorem kpiFold_ledger (employees : List Employee) :
    ∀ (st : Nat × List Nat × Ledger),
      (∀ w d, entryVal (employees.foldl kpiStep st).2.2 w d =
        entryVal st.2.2 w d) ∧
      (∀ p ∈ (employees.foldl kpiStep st).2.2, p ∈ st.2.2 ∨ p.2 = []) := by
  induction employees with
  | nil => intro st; exact ⟨fun w d => rfl, fun p hp => Or.inl hp⟩
  | cons e es ih =>
      intro st
      rw [List.foldl_cons]
      refine ⟨?_, ?_⟩
      · intro w d
        rw [(ih (kpiStep st e)).1 w d]
        show entryVal (outerRead st.2.2 e.id).2 w d = _
        exact entryVal_outerRead st.2.2 e.id w d
      · intro p hp
        rcases (ih (kpiStep st e)).2 p hp with h | h
        · rcases mem_outerRead st.2.2 e.id p h with h2 | h2
          · exact Or.inl h2
          · exact Or.inr h2
        · exact Or.inr h

/-- C9 counterexample: the KPI calculator does not leave the capacity
ledger unchanged — with one roster worker absent from an empty ledger, the
defaultdict read inserts an empty row for that worker. -/
theorem c9_counterexample :
    (calculate_kpi_metrics [] [] [] [empNoPos] 8).2 ≠ ([] : Ledger) := by
  decide

/-- C9 amended: `calculate_kpi_metrics` never raises and changes no
(worker, date) hours value of the ledger; however, reading each roster
worker's row inserts an empty row for workers absent from the ledger (a
defaultdict artifact), so the ledger object may gain empty entries rather
than being left unchanged; its other arguments are read only, and fully
degenerate inputs (no assignments, no unassigned tasks, empty ledger,
empty roster) produce all-zero metrics. -/
theorem c9_kpi_frame (assignments : List Assignment)
    (unassigned_tasks : List Task) (L : Ledger) (employees : List Employee)
    (cap : Nat) :
    (∀ w d, entryVal
        (calculate_kpi_metrics assignments unassigned_tasks L employees cap).2
        w d = entryVal L w d) ∧
    (∀ p ∈ (calculate_kpi_metrics assignments unassigned_tasks L
        employees cap).2, p ∈ L ∨ p.2 = []) ∧
    (calculate_kpi_metrics [] [] [] [] cap).1 =
      ⟨0, 0, 0, some 0, 0, 0, 0⟩ := by
  refine ⟨?_, ?_, ?_⟩
  · intro w d
    show entryVal (kpiWorkerFold employees L).2.2 w d = entryVal L w d
    exact (kpiFold_ledger employees (0, [], L)).1 w d
  · intro p hp
    exact (kpiFold_ledger employees (0, [], L)).2 p hp
  · unfold calculate_kpi_metrics
    norm_num [kpiWorkerFold, ledgerDates, round3,
      calculate_gini_coefficient, KPIMetrics.mk.injEq]

/-- C6: the code path for 0 or 1 workers returns exactly 0.0, but the
general path hands the per-worker totals to the library Gini, whose
denominator `n · Σv` is zero for an all-zero load vector: the float result
is undefined (NaN, modelled as `none`), not the 0.0 the claim requires.
The failing input arises from any roster of two or more workers with no
assigned hours.  The library Gini is modelled from the spec formula (the
`inequality` package's source is not in the repository). -/
theorem c6_gini_zero_denominator :
    calculate_gini_coefficient [0, 0] = none ∧
    calculate_gini_coefficient [] = some 0 ∧
    calculate_gini_coefficient [5] = some 0 ∧
    (calculate_kpi_metrics [] [] [] [empP, empB] 8).1.gini_coefficient =
      none ∧
    (calculate_kpi_metrics [] [] [] [empP, empB] 8).1.total_workers = 2 := by
  refine ⟨by decide, by decide, by decide, by decide, by decide⟩

/-! ## Comparing the two strategies (exact vs greedy)

The comparison needs the two matching keys to agree, which holds when the
referenced positions have consistent ids and names (they are database rows
with unique names) and no position is literally named like the sentinel. -/

/-- All position rows referenced by the inputs. -/
def enginePositions (tasks : List Task) (employees : List Employee) :
    List Position :=
  tasks.filterMap (fun t => t.position) ++
    employees.filterMap (fun e => e.position)

/-- Referenced positions agree on ids exactly when they agree on names
(ids are primary keys, names carry a unique constraint). -/
def PosConsistent (tasks : List Task) (employees : List Employee) : Prop :=
  ∀ p ∈ enginePositions tasks employees, ∀ q ∈ enginePositions tasks employees,
    (p.id = q.id ↔ p.name = q.name)

/-- No referenced position is literally named like the sentinel. -/
def NoSentinelName (tasks : List Task) (employees : List Employee) : Prop :=
  ∀ p ∈ enginePositions tasks employees, p.name ≠ "Unassigned"

theorem posName_iff_posMatch {tasks : List Task} {employees : List Employee}
    (hcons : PosConsistent tasks employees)
    (hname : NoSentinelName tasks employees)
    {t : Task} (ht : t ∈ tasks) {e : Employee} (he : e ∈ employees) :
    posName t.position = posName e.position ↔ posMatch t e = true := by
  have hmemT : ∀ p, t.position = some p → p ∈ enginePositions tasks employees := by
    intro p hp
    exact List.mem_append_left _
      (List.mem_filterMap.mpr ⟨t, ht, hp⟩)
  have hmemE : ∀ p, e.position = some p → p ∈ enginePositions tasks employees := by
    intro p hp
    exact List.mem_append_right _
      (List.mem_filterMap.mpr ⟨e, he, hp⟩)
  cases hpt : t.position with
  | none =>
      cases hpe : e.position with
      | none => simp [posName, posMatch, posKey, hpt, hpe]
      | some q =>
          have hq := hname q (hmemE q hpe)
          simp [posName, posMatch, posKey, hpt, hpe]
          intro hh
          exact hq hh.symm
  | some p =>
      cases hpe : e.position with
      | none =>
          have hp := hname p (hmemT p hpt)
          simp [posName, posMatch, posKey, hpt, hpe, hp]
      | some q =>
          have hiff := hcons p (hmemT p hpt) q (hmemE q hpe)
          simp only [posName, posMatch, posKey, hpt, hpe, Option.map_some,
            beq_iff_eq, Option.some.injEq]
          rw [show (Option.map Position.id (some p) =
              Option.map Position.id (some q)) ↔ p.id = q.id from by simp]
          exact hiff.symm

/-- The 0/1 solution induced by the greedy result: a variable is 1 exactly
when greedy made that (task, worker) assignment. -/
def greedySolBits (tasks : List Task) (employees : List Employee)
    (cap : Nat) : Nat × Nat → Bool :=
  fun k => decide (k ∈ (assign_tasks_using_greedy tasks employees cap).assigned.map
    (fun a => (a.task.id, a.worker.id)))

theorem greedySolBits_iff (tasks : List Task) (employees : List Employee)
    (cap : Nat) (ti ei : Nat) :
    greedySolBits tasks employees cap (ti, ei) = true ↔
      ∃ a ∈ (assign_tasks_using_greedy tasks employees cap).assigned,
        a.task.id = ti ∧ a.worker.id = ei := by
  unfold greedySolBits
  rw [decide_eq_true_iff, List.mem_map]
  constructor
  · intro ⟨a, ha, hpair⟩
    rw [Prod.mk.injEq] at hpair
    exact ⟨a, ha, hpair.1, hpair.2⟩
  · intro ⟨a, ha, h1, h2⟩
    exact ⟨a, ha, by rw [h1, h2]⟩

theorem greedy_taskIds_nodup (tasks : List Task) (employees : List Employee)
    (cap : Nat) (hndT : (tasks.map Task.id).Nodup) :
    ((assign_tasks_using_greedy tasks employees cap).assigned.map
      (fun a => a.task.id)).Nodup := by
  have hg := greedy_master tasks employees cap
  have hperm := hg.perm.map Task.id
  rw [List.map_append, List.map_map] at hperm
  have hnd2 := (List.Perm.nodup_iff hperm).mpr hndT
  exact List.Nodup.of_append_left hnd2

theorem greedy_assign_unique (tasks : List Task) (employees : List Employee)
    (cap : Nat) (hndT : (tasks.map Task.id).Nodup) :
    ∀ a1 ∈ (assign_tasks_using_greedy tasks employees cap).assigned,
      ∀ a2 ∈ (assign_tasks_using_greedy tasks employees cap).assigned,
        a1.task.id = a2.task.id → a1 = a2 := by
  intro a1 h1 a2 h2 hid
  exact List.inj_on_of_nodup_map
    (f := fun a => a.task.id)
    (greedy_taskIds_nodup tasks employees cap hndT) h1 h2 hid

theorem greedy_task_unassigned_disjoint (tasks : List Task)
    (employees : List Employee) (cap : Nat)
    (hndT : (tasks.map Task.id).Nodup) :
    ∀ t ∈ (assign_tasks_using_greedy tasks employees cap).unassigned,
      ∀ a ∈ (assign_tasks_using_greedy tasks employees cap).assigned,
        a.task.id ≠ t.id := by
  intro t ht a ha hid
  have hg := greedy_master tasks employees cap
  have hperm := hg.perm.map Task.id
  rw [List.map_append, List.map_map] at hperm
  have hnd2 := (List.Perm.nodup_iff hperm).mpr hndT
  rw [List.nodup_append] at hnd2
  refine hnd2.2.2 (List.mem_map.mpr ⟨a, ha, rfl⟩) ?_
  show a.task.id ∈ _
  rw [hid]
  exact List.mem_map.mpr ⟨t, ht, rfl⟩

theorem elig_greedySol_assigned (tasks : List Task)
    (employees : List Employee) (cap : Nat)
    (hndT : (tasks.map Task.id).Nodup)
    (hndE : (employees.map Employee.id).Nodup)
    (hcons : PosConsistent tasks employees)
    (hname : NoSentinelName tasks employees)
    {t : Task} (ht : t ∈ tasks) {a : Assignment}
    (ha : a ∈ (assign_tasks_using_greedy tasks employees cap).assigned)
    (hat : a.task = t) :
    elig employees (greedySolBits tasks employees cap) t = [a.worker] := by
  have hg := greedy_master tasks employees cap
  have hwf := hg.wf a ha
  have hmatch : posMatch t a.worker = true := by
    rw [← hat]
    exact (posName_iff_posMatch hcons hname hwf.2.1 hwf.1).mp hwf.2.2.1
  have hpred : ∀ e ∈ employees,
      (posMatch t e && greedySolBits tasks employees cap (t.id, e.id)) =
      (posMatch t e && (e.id == a.worker.id)) := by
    intro e he
    by_cases hid : e.id = a.worker.id
    · have hsg : greedySolBits tasks employees cap (t.id, e.id) = true := by
        rw [greedySolBits_iff]
        exact ⟨a, ha, by rw [hat], hid.symm⟩
      rw [hsg, hid]
      simp
    · have hsg : greedySolBits tasks employees cap (t.id, e.id) = false := by
        rw [← Bool.not_eq_true, greedySolBits_iff]
        intro ⟨a2, ha2, hid2, hide2⟩
        have ha2a : a2 = a :=
          greedy_assign_unique tasks employees cap hndT a2 ha2 a ha
            (by rw [hid2, hat])
        subst ha2a
        exact hid hide2.symm
      rw [hsg]
      have hid2 : (e.id == a.worker.id) = false := by
        rw [beq_eq_false_iff_ne]
        exact hid
      rw [hid2]
  show employees.filter _ = _
  rw [List.filter_congr hpred,
    filter_id_unique employees hndE a.worker hwf.1 (fun e => posMatch t e),
    if_pos hmatch]

theorem elig_greedySol_unassigned (tasks : List Task)
    (employees : List Employee) (cap : Nat) {t : Task}
    (hno : ∀ a ∈ (assign_tasks_using_greedy tasks employees cap).assigned,
      a.task.id ≠ t.id) :
    elig employees (greedySolBits tasks employees cap) t = [] := by
  unfold elig
  rw [List.filter_eq_nil_iff]
  intro e he
  simp only [Bool.and_eq_true, not_and]
  intro _
  rw [greedySolBits_iff]
  intro ⟨a, ha, h1, _⟩
  exact hno a ha h1

theorem sum_map_const {α : Type} (l : List α) (c : Nat) :
    (l.map (fun _x => c)).sum = l.length * c := by
  induction l with
  | nil => simp
  | cons x xs ih => simp [ih, Nat.succ_mul, Nat.add_comm]

theorem lpTotal_eq_sum_over_tasks (tasks : List Task)
    (employees : List Employee) (sol : Nat × Nat → Bool) :
    lpTotal tasks employees sol =
      (tasks.map (fun t => (elig employees sol t).length * t.duration)).sum := by
  unfold lpTotal
  rw [lpChosen_eq_flatMap]
  induction tasks with
  | nil => rfl
  | cons t ts ih =>
      rw [List.flatMap_cons, List.map_append, List.sum_append, ih,
        List.map_cons, List.sum_cons]
      congr 1
      rw [innerFor_eq, List.map_map]
      have : ((fun p : Task × Employee => p.1.duration) ∘ fun e => (t, e)) =
          (fun _e : Employee => t.duration) := rfl
      rw [this, sum_map_const]

theorem greedy_task_cases (tasks : List Task) (employees : List Employee)
    (cap : Nat) (hndT : (tasks.map Task.id).Nodup) {t : Task}
    (ht : t ∈ tasks) :
    (∃ a ∈ (assign_tasks_using_greedy tasks employees cap).assigned,
      a.task = t) ∨
    (∀ a ∈ (assign_tasks_using_greedy tasks employees cap).assigned,
      a.task.id ≠ t.id) := by
  have hg := greedy_master tasks employees cap
  by_cases hex : ∃ a ∈ (assign_tasks_using_greedy tasks employees cap).assigned,
      a.task.id = t.id
  · obtain ⟨a, ha, hid⟩ := hex
    refine Or.inl ⟨a, ha, ?_⟩
    exact nodup_id_inj_task tasks hndT a.task (hg.wf a ha).2.1 t ht hid
  · refine Or.inr (fun a ha hid => hex ⟨a, ha, hid⟩)

theorem sum_filter_ite_gen {α : Type} (l : List α) (c : α → Bool)
    (f : α → Nat) :
    ((l.filter c).map f).sum = (l.map (fun x => if c x then f x else 0)).sum := by
  induction l with
  | nil => rfl
  | cons x xs ih =>
      by_cases hc : c x
      · rw [List.filter_cons_of_pos hc, List.map_cons, List.map_cons,
          List.sum_cons, List.sum_cons, if_pos hc, ih]
      · rw [List.filter_cons_of_neg hc, List.map_cons, List.sum_cons,
          if_neg hc, ih]
        omega

theorem lpTotal_greedySol (tasks : List Task) (employees : List Employee)
    (cap : Nat)
    (hndT : (tasks.map Task.id).Nodup)
    (hndE : (employees.map Employee.id).Nodup)
    (hcons : PosConsistent tasks employees)
    (hname : NoSentinelName tasks employees) :
    lpTotal tasks employees (greedySolBits tasks employees cap) =
      ((assign_tasks_using_greedy tasks employees cap).assigned.map
        (fun a => a.hours)).sum := by
  have hg := greedy_master tasks employees cap
  rw [lpTotal_eq_sum_over_tasks]
  have hmap : tasks.map (fun t =>
      (elig employees (greedySolBits tasks employees cap) t).length *
        t.duration) =
      tasks.map (fun t =>
        if ∃ a ∈ (assign_tasks_using_greedy tasks employees cap).assigned,
          a.task = t then t.duration else 0) := by
    refine List.map_congr_left (fun t ht => ?_)
    rcases greedy_task_cases tasks employees cap hndT ht with ⟨a, ha, hat⟩ | hno
    · rw [elig_greedySol_assigned tasks employees cap hndT hndE hcons hname
        ht ha hat, if_pos ⟨a, ha, hat⟩]
      simp
    · rw [elig_greedySol_unassigned tasks employees cap hno, if_neg ?_]
      · simp
      · intro ⟨a, ha, hat⟩
        exact hno a ha (by rw [hat])
  rw [hmap]
  have hsum := List.Perm.sum_eq (List.Perm.map
    (fun t => if ∃ a ∈ (assign_tasks_using_greedy tasks employees cap).assigned,
      a.task = t then t.duration else 0) hg.perm)
  rw [← hsum, List.map_append, List.sum_append, List.map_map]
  have hA : (assign_tasks_using_greedy tasks employees cap).assigned.map
      ((fun t => if ∃ a ∈ (assign_tasks_using_greedy tasks employees cap).assigned,
        a.task = t then t.duration else 0) ∘ (fun a => a.task)) =
      (assign_tasks_using_greedy tasks employees cap).assigned.map
        (fun a => a.hours) := by
    refine List.map_congr_left (fun a ha => ?_)
    show (if ∃ a2 ∈ (assign_tasks_using_greedy tasks employees cap).assigned,
      a2.task = a.task then a.task.duration else 0) = a.hours
    rw [if_pos ⟨a, ha, rfl⟩, (hg.wf a ha).2.2.2.1]
  have hU : ((assign_tasks_using_greedy tasks employees cap).unassigned.map
      (fun t => if ∃ a ∈ (assign_tasks_using_greedy tasks employees cap).assigned,
        a.task = t then t.duration else 0)).sum = 0 := by
    refine List.sum_eq_zero (fun x hx => ?_)
    rcases List.mem_map.mp hx with ⟨t, ht, hxt⟩
    rw [← hxt, if_neg ?_]
    intro ⟨a, ha, hat⟩
    exact greedy_task_unassigned_disjoint tasks employees cap hndT t ht a ha
      (by rw [hat])
  rw [hA, hU]
  omega

theorem greedySol_constraintA (tasks : List Task) (employees : List Employee)
    (cap : Nat)
    (hndT : (tasks.map Task.id).Nodup)
    (hndE : (employees.map Employee.id).Nodup)
    (hcons : PosConsistent tasks employees)
    (hname : NoSentinelName tasks employees) :
    lpConstraintA tasks employees (greedySolBits tasks employees cap) := by
  intro t ht
  show (elig employees (greedySolBits tasks employees cap) t).length ≤ 1
  rcases greedy_task_cases tasks employees cap hndT ht with ⟨a, ha, hat⟩ | hno
  · rw [elig_greedySol_assigned tasks employees cap hndT hndE hcons hname
      ht ha hat]
    exact Nat.le_refl 1
  · rw [elig_greedySol_unassigned tasks employees cap hno]
    exact Nat.zero_le 1

theorem greedySol_constraintB (tasks : List Task) (employees : List Employee)
    (cap : Nat)
    (hndT : (tasks.map Task.id).Nodup)
    (hndE : (employees.map Employee.id).Nodup)
    (hcons : PosConsistent tasks employees)
    (hname : NoSentinelName tasks employees) :
    lpConstraintB tasks employees cap (greedySolBits tasks employees cap) := by
  have hg := greedy_master tasks employees cap
  intro e he d _hd
  rw [sum_filter_eq_sum_ite]
  have hmap : tasks.map (fun t =>
      if (t.date == d && posMatch t e &&
          greedySolBits tasks employees cap (t.id, e.id)) = true
      then t.duration else 0) =
      tasks.map (fun t =>
        if ∃ a ∈ (assign_tasks_using_greedy tasks employees cap).assigned,
          a.task = t ∧ a.worker.id = e.id ∧ a.work_date = d
        then t.duration else 0) := by
    refine List.map_congr_left (fun t ht => ?_)
    by_cases hex : ∃ a ∈ (assign_tasks_using_greedy tasks employees cap).assigned,
        a.task = t ∧ a.worker.id = e.id ∧ a.work_date = d
    · obtain ⟨a, ha, hat, hwid, hwd⟩ := hex
      have hwf := hg.wf a ha
      have h1 : (t.date == d) = true := by
        rw [beq_iff_eq, ← hat, ← hwf.2.2.2.2]
        exact hwd
      have hwe : a.worker = e :=
        nodup_id_inj_emp employees hndE a.worker hwf.1 e he hwid
      have h2 : posMatch t e = true := by
        rw [← hwe, ← hat]
        exact (posName_iff_posMatch hcons hname hwf.2.1 hwf.1).mp hwf.2.2.1
      have h3 : greedySolBits tasks employees cap (t.id, e.id) = true := by
        rw [greedySolBits_iff]
        exact ⟨a, ha, by rw [hat], hwid⟩
      rw [if_pos (by rw [h1, h2, h3]; rfl),
        if_pos ⟨a, ha, hat, hwid, hwd⟩]
    · rw [if_neg ?_, if_neg hex]
      intro hb
      simp only [Bool.and_eq_true, beq_iff_eq] at hb
      obtain ⟨⟨hdate, _⟩, hsg⟩ := hb
      rcases (greedySolBits_iff tasks employees cap t.id e.id).mp hsg
        with ⟨a, ha, hid1, hid2⟩
      have hwf := hg.wf a ha
      have hat : a.task = t :=
        nodup_id_inj_task tasks hndT a.task hwf.2.1 t ht hid1
      refine hex ⟨a, ha, hat, hid2, ?_⟩
      rw [hwf.2.2.2.2, hat, hdate]
  rw [hmap]
  have hsum := List.Perm.sum_eq (List.Perm.map
    (fun t => if ∃ a ∈ (assign_tasks_using_greedy tasks employees cap).assigned,
      a.task = t ∧ a.worker.id = e.id ∧ a.work_date = d
      then t.duration else 0) hg.perm)
  rw [← hsum, List.map_append, List.sum_append, List.map_map]
  have hU : ((assign_tasks_using_greedy tasks employees cap).unassigned.map
      (fun t => if ∃ a ∈ (assign_tasks_using_greedy tasks employees cap).assigned,
        a.task = t ∧ a.worker.id = e.id ∧ a.work_date = d
        then t.duration else 0)).sum = 0 := by
    refine List.sum_eq_zero (fun x hx => ?_)
    rcases List.mem_map.mp hx with ⟨t, ht, hxt⟩
    rw [← hxt, if_neg ?_]
    intro ⟨a, ha, hat, _⟩
    exact greedy_task_unassigned_disjoint tasks employees cap hndT t ht a ha
      (by rw [hat])
  have hA : ((assign_tasks_using_greedy tasks employees cap).assigned.map
      ((fun t => if ∃ a ∈ (assign_tasks_using_greedy tasks employees cap).assigned,
        a.task = t ∧ a.worker.id = e.id ∧ a.work_date = d
        then t.duration else 0) ∘ (fun a => a.task))).sum =
      sumFor (assign_tasks_using_greedy tasks employees cap).assigned e.id d := by
    unfold sumFor
    rw [sum_filter_ite_gen]
    refine congrArg List.sum (List.map_congr_left (fun a ha => ?_))
    show (if ∃ a2 ∈ (assign_tasks_using_greedy tasks employees cap).assigned,
        a2.task = a.task ∧ a2.worker.id = e.id ∧ a2.work_date = d
      then a.task.duration else 0) =
      (if (a.worker.id == e.id && a.work_date == d) = true then a.hours else 0)
    have hwf := hg.wf a ha
    by_cases hc : a.worker.id = e.id ∧ a.work_date = d
    · rw [if_pos ⟨a, ha, rfl, hc.1, hc.2⟩,
        if_pos (by simp [hc.1, hc.2]), hwf.2.2.2.1]
    · rw [if_neg ?_, if_neg (by simpa using hc)]
      intro ⟨a2, ha2, hat2, hwid2, hwd2⟩
      have ha2a : a2 = a :=
        greedy_assign_unique tasks employees cap hndT a2 ha2 a ha
          (by rw [hat2])
      subst ha2a
      exact hc ⟨hwid2, hwd2⟩
  rw [hA, hU, Nat.add_zero, ← hg.coher]
  exact entryVal_le_of_ledgerLE hg.bound e.id d

instance (tasks : List Task) (employees : List Employee) (cap : Nat)
    (sol : Nat × Nat → Bool) :
    Decidable (lpFeasible tasks employees cap sol) := by
  unfold lpFeasible
  infer_instance

instance (tasks : List Task) (employees : List Employee) :
    Decidable (PosConsistent tasks employees) := by
  unfold PosConsistent
  infer_instance

instance (tasks : List Task) (employees : List Employee) :
    Decidable (NoSentinelName tasks employees) := by
  unfold NoSentinelName
  infer_instance

/-- C4 counterexample: on an input with a Position literally named
"Unassigned" and a position-less worker, greedy assigns the 4-hour task
(name keys match) while the exact strategy creates no variable at all, so
even an optimal solver run returns 0 assigned hours: the exact total is
not ≥ the greedy total. -/
theorem c4_counterexample :
    ((assign_tasks_using_greedy [taskU] [empNoPos] 8).assigned.map
      (fun a => a.hours)).sum = 4 ∧
    lpOptimal [taskU] [empNoPos] 8 (solOf (fun _k => none)) ∧
    assign_tasks_using_lp [taskU] [empNoPos] 8
        (SolveOutcome.finished (fun _k => none)) =
      Except.ok (lpParse [taskU] [empNoPos] (solOf (fun _k => none))) ∧
    ¬ (((lpParse [taskU] [empNoPos] (solOf (fun _k => none))).assigned.map
          (fun a => a.hours)).sum ≥
        ((assign_tasks_using_greedy [taskU] [empNoPos] 8).assigned.map
          (fun a => a.hours)).sum) := by
  refine ⟨by decide, ⟨by decide, fun sol2 _h2 => ?_⟩, rfl, by decide⟩
  show lpTotal [taskU] [empNoPos] sol2 ≤ lpTotal [taskU] [empNoPos] _
  have h0 : lpTotal [taskU] [empNoPos] sol2 = 0 := rfl
  rw [h0]
  exact Nat.zero_le _

/-- C4 amended: on identical inputs whose ids are distinct (primary keys),
whose referenced positions carry consistent unique ids/names, and where no
position is literally named "Unassigned" (so the two strategies' matching
keys agree), the total assigned hours returned by the exact strategy from
an optimal feasible solver solution are at least the greedy strategy's
total assigned hours. -/
theorem c4_exact_ge_greedy (tasks : List Task) (employees : List Employee)
    (cap : Nat) (vals : Nat × Nat → Option Int) (r : GOut)
    (hndT : (tasks.map Task.id).Nodup)
    (hndE : (employees.map Employee.id).Nodup)
    (hcons : PosConsistent tasks employees)
    (hname : NoSentinelName tasks employees)
    (hopt : lpOptimal tasks employees cap (solOf vals))
    (hok : assign_tasks_using_lp tasks employees cap
      (SolveOutcome.finished vals) = Except.ok r) :
    ((assign_tasks_using_greedy tasks employees cap).assigned.map
      (fun a => a.hours)).sum ≤
      (r.assigned.map (fun a => a.hours)).sum := by
  have hr : lpParse tasks employees (solOf vals) = r := by
    injection hok
  subst hr
  have hparse : ((lpParse tasks employees (solOf vals)).assigned.map
      (fun a => a.hours)).sum = lpTotal tasks employees (solOf vals) := by
    show (((lpChosen tasks employees (solOf vals)).map
      (fun p => mkAssign p.1 p.2)).map (fun a => a.hours)).sum = _
    rw [List.map_map]
    rfl
  rw [hparse, ← lpTotal_greedySol tasks employees cap hndT hndE hcons hname]
  exact hopt.2 (greedySolBits tasks employees cap)
    ⟨greedySol_constraintA tasks employees cap hndT hndE hcons hname,
     greedySol_constraintB tasks employees cap hndT hndE hcons hname⟩

/-- C4 witness: one 4-hour task and one matching worker; the solver sets
the single variable to 1, which is optimal (no solution exceeds the total
task duration 4). -/
theorem c4_exact_ge_greedy_witness :
    (([taskP].map Task.id).Nodup ∧ ([empP].map Employee.id).Nodup ∧
      PosConsistent [taskP] [empP] ∧ NoSentinelName [taskP] [empP] ∧
      lpOptimal [taskP] [empP] 8 (solOf (fun _k => some 1)) ∧
      assign_tasks_using_lp [taskP] [empP] 8
        (SolveOutcome.finished (fun _k => some 1)) =
        Except.ok (lpParse [taskP] [empP] (solOf (fun _k => some 1)))) ∧
    ((assign_tasks_using_greedy [taskP] [empP] 8).assigned.map
      (fun a => a.hours)).sum ≤
      ((lpParse [taskP] [empP] (solOf (fun _k => some 1))).assigned.map
        (fun a => a.hours)).sum := by
  have hopt : lpOptimal [taskP] [empP] 8 (solOf (fun _k => some 1)) := by
    refine ⟨by decide, fun sol2 _h2 => ?_⟩
    show lpTotal [taskP] [empP] sol2 ≤ lpTotal [taskP] [empP] _
    have h4 : lpTotal [taskP] [empP] (solOf (fun _k => some 1)) = 4 := by decide
    rw [h4]
    show ((([(taskP, empP)].filter (fun p => sol2 (p.1.id, p.2.id))).map
      (fun p => p.1.duration)).sum) ≤ 4
    by_cases hs : sol2 (taskP.id, empP.id) = true
    · simp only [List.filter_cons, hs, if_true, List.filter_nil]
      decide
    · simp only [List.filter_cons, hs, if_false, List.filter_nil]
      decide
  exact ⟨⟨by decide, by decide, by decide, by decide, hopt, rfl⟩,
    c4_exact_ge_greedy [taskP] [empP] 8 (fun _k => some 1) _
      (by decide) (by decide) (by decide) (by decide) hopt rfl⟩

end Workforce
